import Mathlib

/-!
# Verification of the BST visualizer's algorithm core

Shallow embedding of the step-recording BST operations of
`src/core/bst.ts`, the pseudocode registry of `src/core/pseudocode.ts`
and the playback controller of `src/canvas/useCanvas.ts`.

Conventions of the embedding:
* a TypeScript `TreeNode | null` is a `Tree` (`Tree.leaf` is `null`);
* JavaScript numbers used as node values are `Int` (the app only feeds
  small integers, no fractional values arise in the core);
* a JavaScript `Map<number, HighlightType>` is an insertion-ordered
  association list with the update-in-place semantics of `Map.set`;
* the imperative loops / recursions of the source become structural
  recursions threading the mutable locals (`steps`, `pathNodes`,
  `pathEdges`, `count`, `result`) as explicit state;
* `removeNode` mutates its clone in place while snapshotting the whole
  tree into steps; the snapshot of the partially mutated clone is
  reproduced by threading the one-hole context `ctx` of the current
  position.
-/

namespace BSTViz

/-- Embedding of `TreeNode | null` from `src/types` (`leaf` plays the role of `null`). -/
inductive Tree where
  | leaf : Tree
  | node (value : Int) (left : Tree) (right : Tree) : Tree
deriving DecidableEq, Repr

/-- Embedding of `HighlightType` from `src/types`. -/
inductive HighlightType where
  | visiting | found | inserting | removing | path
deriving DecidableEq, Repr

/-- Embedding of `Map.set` of a JavaScript `Map` kept as an insertion-ordered
association list: an existing key is updated in place, a new key is
appended at the end. -/
def mapSet : List (Int × HighlightType) → Int → HighlightType → List (Int × HighlightType)
  | [], k, v => [(k, v)]
  | (k', v') :: rest, k, v =>
      if k' = k then (k', v) :: rest else (k', v') :: mapSet rest k v

/-- Embedding of `new Map(entries)`: fold `Map.set` over an entries array. -/
def mapOfList (l : List (Int × HighlightType)) : List (Int × HighlightType) :=
  l.foldl (fun m p => mapSet m p.1 p.2) []

/-- Embedding of `cloneTree` (bst.ts): structural deep copy. -/
def cloneTree : Tree → Tree
  | .leaf => .leaf
  | .node v l r => .node v (cloneTree l) (cloneTree r)

/-- Embedding of `countNodes` (bst.ts). -/
def countNodes : Tree → Nat
  | .leaf => 0
  | .node _ l r => 1 + countNodes l + countNodes r

/-- Embedding of `treeHeight` (bst.ts). -/
def treeHeight : Tree → Nat
  | .leaf => 0
  | .node _ l r => 1 + max (treeHeight l) (treeHeight r)

/-- Value of `findMin(node)` (bst.ts): follow the left spine starting
from a node with value `v` and left subtree `l`. -/
def findMinVal (v : Int) : Tree → Int
  | .leaf => v
  | .node lv ll _ => findMinVal lv ll

/-- In-order list of the values held by the nodes of a tree. -/
def inorderVals : Tree → List Int
  | .leaf => []
  | .node v l r => inorderVals l ++ v :: inorderVals r

/-- All values of the tree are `< b`. -/
def allLt : Tree → Int → Bool
  | .leaf, _ => true
  | .node v l r, b => decide (v < b) && allLt l b && allLt r b

/-- All values of the tree are `> b`. -/
def allGt : Tree → Int → Bool
  | .leaf, _ => true
  | .node v l r, b => decide (b < v) && allGt l b && allGt r b

/-- The strict BST ordering invariant of §3 of the spec. -/
def isBST : Tree → Bool
  | .leaf => true
  | .node v l r => allLt l v && allGt r v && isBST l && isBST r

/-- Embedding of `AnimationStep` from `src/types`. -/
structure AnimationStep where
  tree : Tree
  description : String
  highlightNodes : List (Int × HighlightType)
  highlightEdges : List (Int × Int)
  codeLine : Option Nat
  activeNode : Option Int
deriving DecidableEq, Repr

/-- Embedding of `makeStep` (bst.ts). -/
def makeStep (tree : Tree) (description : String)
    (highlights : List (Int × HighlightType)) (edges : List (Int × Int))
    (codeLine : Option Nat) (activeNode : Option Int) : AnimationStep :=
  { tree := cloneTree tree
    description := description
    highlightNodes := mapOfList highlights
    highlightEdges := edges
    codeLine := codeLine
    activeNode := activeNode }

/-- Embedding of `makeTraversalStep` (bst.ts): copies the visited map and overlays the
current node's highlight on top. -/
def makeTraversalStep (tree : Tree) (description : String) (currentNode : Int)
    (currentType : HighlightType) (visitedNodes : List (Int × HighlightType))
    (visitedEdges : List (Int × Int)) (codeLine : Nat) : AnimationStep :=
  { tree := cloneTree tree
    description := description
    highlightNodes := mapSet visitedNodes currentNode currentType
    highlightEdges := visitedEdges
    codeLine := some codeLine
    activeNode := some currentNode }

-- ── Search ─────────────────────────────────────────────────────────────────

/-- The `while (node)` loop of `searchNode` (bst.ts), threading the
mutable locals `pathNodes`, `pathEdges`, `steps` and the loop variables
`node`, `parent`. -/
def searchGo (root : Tree) (value : Int) :
    Tree → Option Int → List (Int × HighlightType) → List (Int × Int) →
    List AnimationStep → Bool × List AnimationStep
  | .leaf, _, pathNodes, pathEdges, steps =>
      let steps := steps ++ [makeStep root "Reached null" pathNodes pathEdges (some 0) none]
      let steps := steps ++
        [makeStep root (toString value ++ " not found in tree") pathNodes pathEdges (some 1) none]
      (false, steps)
  | .node x l r, parent, pathNodes, pathEdges, steps =>
      let pathEdges := match parent with
        | some p => pathEdges ++ [(p, x)]
        | none => pathEdges
      let pathNodes := mapSet pathNodes x .visiting
      let steps := steps ++
        [makeTraversalStep root ("Visit node " ++ toString x) x .visiting pathNodes pathEdges 0]
      if value = x then
        let pathNodes := mapSet pathNodes x .found
        let steps := steps ++
          [makeTraversalStep root (toString x ++ " == " ++ toString value ++ ". Found!")
            x .found pathNodes pathEdges 2]
        let steps := steps ++
          [makeTraversalStep root ("Value " ++ toString value ++ " is found.")
            x .found pathNodes pathEdges 3]
        (true, steps)
      else if value < x then
        let steps := steps ++
          [makeTraversalStep root (toString value ++ " < " ++ toString x ++ ", go left")
            x .visiting pathNodes pathEdges 6]
        searchGo root value l (some x) pathNodes pathEdges steps
      else
        let steps := steps ++
          [makeTraversalStep root (toString value ++ " > " ++ toString x ++ ", go right")
            x .visiting pathNodes pathEdges 5]
        searchGo root value r (some x) pathNodes pathEdges steps

/-- Embedding of `searchNode` (bst.ts). -/
def searchNode (root : Tree) (value : Int) : Bool × List AnimationStep :=
  searchGo root value root none [] [] []

-- ── Insert ─────────────────────────────────────────────────────────────────

/-- The mutable locals `steps`, `pathNodes`, `pathEdges` shared by the
closures of `insertNode` and `removeNode` (bst.ts). -/
structure PathState where
  steps : List AnimationStep
  pathNodes : List (Int × HighlightType)
  pathEdges : List (Int × Int)
deriving DecidableEq, Repr

/-- The inner recursive `insert(node, parent)` of `insertNode` (bst.ts).
During the descent no mutation has happened yet, so every snapshot of
the clone equals `rootT` (the clone itself). -/
def insertGo (rootT : Tree) (value : Int) :
    Tree → Option Int → PathState → Tree × PathState
  | .leaf, _, s => (.node value .leaf .leaf, s)
  | .node x l r, parent, s =>
      let pe := match parent with
        | some p => s.pathEdges ++ [(p, x)]
        | none => s.pathEdges
      let pn := mapSet s.pathNodes x .visiting
      let steps := s.steps ++
        [makeTraversalStep rootT ("Compare " ++ toString value ++ " with " ++ toString x)
          x .visiting pn pe 0]
      if value < x then
        let steps := steps ++
          [makeTraversalStep rootT (toString value ++ " < " ++ toString x ++ ", go left")
            x .visiting pn pe 2]
        let res := insertGo rootT value l (some x) ⟨steps, pn, pe⟩
        (.node x res.1 r, res.2)
      else if x < value then
        let steps := steps ++
          [makeTraversalStep rootT (toString value ++ " > " ++ toString x ++ ", go right")
            x .visiting pn pe 4]
        let res := insertGo rootT value r (some x) ⟨steps, pn, pe⟩
        (.node x l res.1, res.2)
      else
        (.node x l r, ⟨steps, pn, pe⟩)

/-- Embedding of `insertNode` (bst.ts). -/
def insertNode (root : Tree) (value : Int) : Tree × List AnimationStep :=
  match root with
  | .leaf =>
      let newRoot : Tree := .node value .leaf .leaf
      (newRoot,
        [makeStep newRoot ("Insert " ++ toString value ++ " as root")
          [(value, .inserting)] [] (some 1) none])
  | .node x l r =>
      let cl := cloneTree (.node x l r)
      let res := insertGo cl value cl none ⟨[], [], []⟩
      let pn := mapSet res.2.pathNodes value .inserting
      (res.1, res.2.steps ++
        [makeStep res.1 ("Inserted " ++ toString value) pn res.2.pathEdges (some 1) none])

-- ── Remove ─────────────────────────────────────────────────────────────────

/-- The inner recursive `remove(node, parent)` of `removeNode` (bst.ts).
`remove` always compares against the captured outer `value`, also inside
the recursive call of the two-children case.  The clone is mutated in
place while whole-tree snapshots are taken, reproduced here by the
one-hole context `ctx` of the current position (the only pre-recursion
mutation is `node.value = successor.value` in the two-children case). -/
def removeGo (value : Int) :
    Tree → Option Int → (Tree → Tree) → PathState → Tree × PathState
  | .leaf, _, ctx, s =>
      (.leaf,
        { s with steps := s.steps ++
            [makeStep (ctx .leaf) (toString value ++ " not found")
              s.pathNodes s.pathEdges (some 1) none] })
  | .node x l r, parent, ctx, s =>
      let pe := match parent with
        | some p => s.pathEdges ++ [(p, x)]
        | none => s.pathEdges
      let pn := mapSet s.pathNodes x .visiting
      let steps := s.steps ++
        [makeTraversalStep (ctx (.node x l r)) ("Visit " ++ toString x)
          x .visiting pn pe 0]
      if value < x then
        let steps := steps ++
          [makeTraversalStep (ctx (.node x l r))
            (toString value ++ " < " ++ toString x ++ ", go left") x .visiting pn pe 2]
        let res := removeGo value l (some x) (fun t => ctx (.node x t r)) ⟨steps, pn, pe⟩
        (.node x res.1 r, res.2)
      else if x < value then
        let steps := steps ++
          [makeTraversalStep (ctx (.node x l r))
            (toString value ++ " > " ++ toString x ++ ", go right") x .visiting pn pe 4]
        let res := removeGo value r (some x) (fun t => ctx (.node x l t)) ⟨steps, pn, pe⟩
        (.node x l res.1, res.2)
      else
        let pn := mapSet pn x .removing
        let steps := steps ++
          [makeTraversalStep (ctx (.node x l r)) ("Found " ++ toString x ++ ", removing")
            x .removing pn pe 6]
        match l, r with
        | .leaf, .leaf =>
            (.leaf,
              ⟨steps ++
                [makeTraversalStep (ctx (.node x l r))
                  (toString x ++ " is a leaf, remove it") x .removing pn pe 7], pn, pe⟩)
        | .leaf, _ =>
            (r,
              ⟨steps ++
                [makeTraversalStep (ctx (.node x l r))
                  (toString x ++ " has one child, replace") x .removing pn pe 8], pn, pe⟩)
        | _, .leaf =>
            (l,
              ⟨steps ++
                [makeTraversalStep (ctx (.node x l r))
                  (toString x ++ " has one child, replace") x .removing pn pe 8], pn, pe⟩)
        | .node _ _ _, .node rv rl _ =>
            let sv := findMinVal rv rl
            let pn := mapSet pn sv .found
            let steps := steps ++
              [makeStep (ctx (.node x l r))
                ("Two children, find successor: " ++ toString sv) pn pe (some 9) none]
            let steps := steps ++
              [makeStep (ctx (.node x l r))
                ("Replace " ++ toString x ++ " with " ++ toString sv) pn pe (some 10) none]
            let res := removeGo value r (some sv) (fun t => ctx (.node sv l t)) ⟨steps, pn, pe⟩
            (.node sv l res.1, res.2)

/-- Embedding of `removeNode` (bst.ts). -/
def removeNode (root : Tree) (value : Int) : Tree × List AnimationStep :=
  let cl := cloneTree root
  let res := removeGo value cl none (fun t => t) ⟨[], [], []⟩
  (res.1, res.2.steps ++
    [makeStep res.1 "Removal complete" res.2.pathNodes res.2.pathEdges none none])

-- ── Traversals ─────────────────────────────────────────────────────────────
-- (`buildParentMap` is computed by the source but never read; it is not
-- modelled.)

/-- The mutable locals `steps`, `visitedNodes`, `visitedEdges` of the
three traversal functions (bst.ts). -/
structure TravState where
  steps : List AnimationStep
  visitedNodes : List (Int × HighlightType)
  visitedEdges : List (Int × Int)
deriving DecidableEq, Repr

/-- Push the edge to a child if the child is non-null
(`if (node.left) visitedEdges.push([node.value, node.left.value])`). -/
def pushChildEdge (v : Int) (child : Tree) (edges : List (Int × Int)) : List (Int × Int) :=
  match child with
  | .leaf => edges
  | .node cv _ _ => edges ++ [(v, cv)]

/-- The inner `walk` of `inorderTraversal` (bst.ts). -/
def inorderWalk (root : Tree) : Tree → TravState → TravState
  | .leaf, s => s
  | .node v l r, s =>
      let s := { s with steps := s.steps ++
        [makeTraversalStep root ("Go left from " ++ toString v) v .visiting
          s.visitedNodes s.visitedEdges 2] }
      let s := { s with visitedEdges := pushChildEdge v l s.visitedEdges }
      let s := inorderWalk root l s
      let s := { s with visitedNodes := mapSet s.visitedNodes v .found }
      let s := { s with steps := s.steps ++
        [makeTraversalStep root ("Visit " ++ toString v ++ " (in-order)") v .found
          s.visitedNodes s.visitedEdges 3] }
      let s := { s with steps := s.steps ++
        [makeTraversalStep root ("Go right from " ++ toString v) v .visiting
          s.visitedNodes s.visitedEdges 4] }
      let s := { s with visitedEdges := pushChildEdge v r s.visitedEdges }
      inorderWalk root r s

/-- Embedding of `inorderTraversal` (bst.ts). -/
def inorderTraversal (root : Tree) : List AnimationStep :=
  let s := inorderWalk root root ⟨[], [], []⟩
  s.steps ++
    [makeStep root "In-order traversal complete" s.visitedNodes s.visitedEdges none none]

/-- The inner `walk` of `preorderTraversal` (bst.ts). -/
def preorderWalk (root : Tree) : Tree → TravState → TravState
  | .leaf, s => s
  | .node v l r, s =>
      let s := { s with visitedNodes := mapSet s.visitedNodes v .found }
      let s := { s with steps := s.steps ++
        [makeTraversalStep root ("Visit " ++ toString v ++ " (pre-order)") v .found
          s.visitedNodes s.visitedEdges 2] }
      let s := { s with steps := s.steps ++
        [makeTraversalStep root ("Go left from " ++ toString v) v .visiting
          s.visitedNodes s.visitedEdges 3] }
      let s := { s with visitedEdges := pushChildEdge v l s.visitedEdges }
      let s := preorderWalk root l s
      let s := { s with steps := s.steps ++
        [makeTraversalStep root ("Go right from " ++ toString v) v .visiting
          s.visitedNodes s.visitedEdges 4] }
      let s := { s with visitedEdges := pushChildEdge v r s.visitedEdges }
      preorderWalk root r s

/-- Embedding of `preorderTraversal` (bst.ts). -/
def preorderTraversal (root : Tree) : List AnimationStep :=
  let s := preorderWalk root root ⟨[], [], []⟩
  s.steps ++
    [makeStep root "Pre-order traversal complete" s.visitedNodes s.visitedEdges none none]

/-- The inner `walk` of `postorderTraversal` (bst.ts). -/
def postorderWalk (root : Tree) : Tree → TravState → TravState
  | .leaf, s => s
  | .node v l r, s =>
      let s := { s with steps := s.steps ++
        [makeTraversalStep root ("Go left from " ++ toString v) v .visiting
          s.visitedNodes s.visitedEdges 2] }
      let s := { s with visitedEdges := pushChildEdge v l s.visitedEdges }
      let s := postorderWalk root l s
      let s := { s with steps := s.steps ++
        [makeTraversalStep root ("Go right from " ++ toString v) v .visiting
          s.visitedNodes s.visitedEdges 3] }
      let s := { s with visitedEdges := pushChildEdge v r s.visitedEdges }
      let s := postorderWalk root r s
      let s := { s with visitedNodes := mapSet s.visitedNodes v .found }
      { s with steps := s.steps ++
        [makeTraversalStep root ("Visit " ++ toString v ++ " (post-order)") v .found
          s.visitedNodes s.visitedEdges 4] }

/-- Embedding of `postorderTraversal` (bst.ts). -/
def postorderTraversal (root : Tree) : List AnimationStep :=
  let s := postorderWalk root root ⟨[], [], []⟩
  s.steps ++
    [makeStep root "Post-order traversal complete" s.visitedNodes s.visitedEdges none none]

-- ── Predecessor / Successor ────────────────────────────────────────────────

/-- The `while (node)` loop of `findPredecessor` (bst.ts), threading
`predecessor`, `parent` and the path state. -/
def predGo (root : Tree) (value : Int) :
    Tree → Option Int → Option Int → PathState → Option Int × PathState
  | .leaf, _, pred, s => (pred, s)
  | .node x l r, parent, pred, s =>
      let pe := match parent with
        | some p => s.pathEdges ++ [(p, x)]
        | none => s.pathEdges
      let pn := mapSet s.pathNodes x .visiting
      let steps := s.steps ++
        [makeTraversalStep root ("Visit " ++ toString x) x .visiting pn pe 1]
      if value ≤ x then
        let steps := steps ++
          [makeTraversalStep root (toString value ++ " <= " ++ toString x ++ ", go left")
            x .visiting pn pe 3]
        predGo root value l (some x) pred ⟨steps, pn, pe⟩
      else
        let pn := mapSet pn x .found
        let steps := steps ++
          [makeTraversalStep root (toString value ++ " > " ++ toString x ++ ", candidate")
            x .found pn pe 5]
        predGo root value r (some x) (some x) ⟨steps, pn, pe⟩

/-- Embedding of `findPredecessor` (bst.ts). -/
def findPredecessor (root : Tree) (value : Int) : Option Int × List AnimationStep :=
  let s0 : PathState :=
    ⟨[makeStep root ("Finding predecessor of " ++ toString value) [] [] (some 0) none], [], []⟩
  let res := predGo root value root none none s0
  match res.1 with
  | some pv =>
      (some pv, res.2.steps ++
        [makeStep root ("Predecessor of " ++ toString value ++ " is " ++ toString pv)
          res.2.pathNodes res.2.pathEdges (some 7) none])
  | none =>
      (none, res.2.steps ++
        [makeStep root ("No predecessor for " ++ toString value)
          res.2.pathNodes res.2.pathEdges (some 7) none])

/-- The `while (node)` loop of `findSuccessor` (bst.ts). -/
def succGo (root : Tree) (value : Int) :
    Tree → Option Int → Option Int → PathState → Option Int × PathState
  | .leaf, _, succ, s => (succ, s)
  | .node x l r, parent, succ, s =>
      let pe := match parent with
        | some p => s.pathEdges ++ [(p, x)]
        | none => s.pathEdges
      let pn := mapSet s.pathNodes x .visiting
      let steps := s.steps ++
        [makeTraversalStep root ("Visit " ++ toString x) x .visiting pn pe 1]
      if x ≤ value then
        let steps := steps ++
          [makeTraversalStep root (toString value ++ " >= " ++ toString x ++ ", go right")
            x .visiting pn pe 3]
        succGo root value r (some x) succ ⟨steps, pn, pe⟩
      else
        let pn := mapSet pn x .found
        let steps := steps ++
          [makeTraversalStep root (toString value ++ " < " ++ toString x ++ ", candidate")
            x .found pn pe 5]
        succGo root value l (some x) (some x) ⟨steps, pn, pe⟩

/-- Embedding of `findSuccessor` (bst.ts). -/
def findSuccessor (root : Tree) (value : Int) : Option Int × List AnimationStep :=
  let s0 : PathState :=
    ⟨[makeStep root ("Finding successor of " ++ toString value) [] [] (some 0) none], [], []⟩
  let res := succGo root value root none none s0
  match res.1 with
  | some sv =>
      (some sv, res.2.steps ++
        [makeStep root ("Successor of " ++ toString value ++ " is " ++ toString sv)
          res.2.pathNodes res.2.pathEdges (some 7) none])
  | none =>
      (none, res.2.steps ++
        [makeStep root ("No successor for " ++ toString value)
          res.2.pathNodes res.2.pathEdges (some 7) none])

-- ── Select k-th smallest ───────────────────────────────────────────────────

/-- The mutable locals of `selectKth` (bst.ts): `count` and `result` are
JavaScript numbers, kept as `Int` (`k` may be non-positive). -/
structure KthState where
  steps : List AnimationStep
  visitedNodes : List (Int × HighlightType)
  visitedEdges : List (Int × Int)
  count : Int
  result : Option Int
deriving DecidableEq, Repr

/-- The inner `walk` of `selectKth` (bst.ts).  The guard
`if (!node || result !== null) return` makes every call after the result
has been recorded a no-op, but ancestors still on the stack continue
with `count++` and their visit step once their left-subtree call
returns. -/
def kthWalk (root : Tree) (k : Int) : Tree → KthState → KthState
  | .leaf, s => s
  | .node v l r, s =>
      if s.result.isSome then s
      else
        let s := { s with visitedEdges := pushChildEdge v l s.visitedEdges }
        let s := kthWalk root k l s
        let s := { s with count := s.count + 1,
                          visitedNodes := mapSet s.visitedNodes v .visiting }
        let s := { s with steps := s.steps ++
          [makeTraversalStep root
            ("Visit " ++ toString v ++ " (count=" ++ toString s.count ++ ")")
            v .visiting s.visitedNodes s.visitedEdges 2] }
        if s.count = k then
          let s := { s with result := some v,
                            visitedNodes := mapSet s.visitedNodes v .found }
          { s with steps := s.steps ++
            [makeTraversalStep root
              (toString k ++ "-th smallest is " ++ toString v)
              v .found s.visitedNodes s.visitedEdges 4] }
        else
          let s := { s with visitedEdges := pushChildEdge v r s.visitedEdges }
          kthWalk root k r s

/-- Embedding of `selectKth` (bst.ts). -/
def selectKth (root : Tree) (k : Int) : Option Int × List AnimationStep :=
  let s0 : KthState :=
    ⟨[makeStep root ("Select " ++ toString k ++ "-th smallest") [] [] (some 0) none],
      [], [], 0, none⟩
  let s := kthWalk root k root s0
  match s.result with
  | none =>
      (none, s.steps ++
        [makeStep root ("k=" ++ toString k ++ " is out of range")
          s.visitedNodes s.visitedEdges (some 6) none])
  | some rv =>
      (some rv, s.steps ++
        [makeStep root ("Result: " ++ toString rv)
          s.visitedNodes s.visitedEdges (some 6) none])

-- ── Create random tree ─────────────────────────────────────────────────────

/-- The insertion loop of `createRandomTree` (bst.ts): the `Math.random`
sampling of distinct values is abstracted by the list `values` actually
drawn; the per-value `insertNode` calls, the step concatenation and the
final summary step follow the source. -/
def createTreeFromValues (values : List Int) : Tree × List AnimationStep :=
  let res := values.foldl
    (fun (acc : Tree × List AnimationStep) v =>
      let r := insertNode acc.1 v
      (r.1, acc.2 ++ r.2))
    (.leaf, [])
  (res.1, res.2 ++
    [makeStep res.1 ("Created BST with " ++ toString values.length ++ " nodes")
      [] [] none none])

-- ── Pseudocode registry (src/core/pseudocode.ts) ───────────────────────────

/-- Embedding of `OperationType` from `src/types`. -/
inductive OperationType where
  | create | search | insert | remove | predecessor | successor
  | selectKth | inorder | preorder | postorder
deriving DecidableEq, Repr

/-- Embedding of `PseudocodeEntry` (pseudocode.ts). -/
structure PseudocodeEntry where
  lines : List String
  title : String
deriving DecidableEq, Repr

/-- Embedding of `getPseudocode` (pseudocode.ts): the static `PSEUDOCODE` table; every
`OperationType` has an entry, so the `?? fallback` branch is dead. -/
def getPseudocode : OperationType → PseudocodeEntry
  | .search =>
      { title := "Search"
        lines := ["if this == null", "  return null",
                  "else if this.key == search value", "  return this",
                  "else if this.key < search value", "  search right",
                  "else search left"] }
  | .insert =>
      { title := "Insert"
        lines := ["if this == null", "  create new node",
                  "else if value < this.key", "  go left",
                  "else if value > this.key", "  go right"] }
  | .remove =>
      { title := "Remove"
        lines := ["if this == null", "  return (not found)",
                  "else if value < this.key", "  go left",
                  "else if value > this.key", "  go right",
                  "else // found the node", "  if leaf node: remove it",
                  "  if one child: bypass", "  if two children:",
                  "    replace with successor", "    remove successor from right"] }
  | .create =>
      { title := "Create"
        lines := ["if this == null", "  create new node",
                  "else if value < this.key", "  go left",
                  "else if value > this.key", "  go right"] }
  | .inorder =>
      { title := "In-Order Traversal"
        lines := ["if node == null", "  return", "inorder(node.left)",
                  "visit node", "inorder(node.right)"] }
  | .preorder =>
      { title := "Pre-Order Traversal"
        lines := ["if node == null", "  return", "visit node",
                  "preorder(node.left)", "preorder(node.right)"] }
  | .postorder =>
      { title := "Post-Order Traversal"
        lines := ["if node == null", "  return", "postorder(node.left)",
                  "postorder(node.right)", "visit node"] }
  | .predecessor =>
      { title := "Predecessor"
        lines := ["predecessor = null", "while node != null",
                  "  if value <= node.key", "    go left", "  else",
                  "    predecessor = node", "    go right", "return predecessor"] }
  | .successor =>
      { title := "Successor"
        lines := ["successor = null", "while node != null",
                  "  if value >= node.key", "    go right", "  else",
                  "    successor = node", "    go left", "return successor"] }
  | .selectKth =>
      { title := "Select k-th"
        lines := ["count = 0, result = null", "inorder(node.left)", "count++",
                  "if count == k", "  result = node.key", "inorder(node.right)",
                  "return result"] }

-- ── Playback controller (src/canvas/useCanvas.ts) ──────────────────────────

/-- Observable callbacks of `createPlayback`: `onStep(step)` and
`onComplete()`. -/
inductive PEvent where
  | step (s : AnimationStep)
  | complete
deriving DecidableEq, Repr

/-- Embedding of `emitCurrent` (useCanvas.ts): calls `onStep(steps[index])` when the
cursor is in range. -/
def emitCurrent (steps : List AnimationStep) (index : Int) : List PEvent :=
  if 0 ≤ index ∧ index < (steps.length : Int) then
    match steps.get? index.toNat with
    | some st => [.step st]
    | none => []
  else []

/-- Embedding of `stepForward` (useCanvas.ts): returns the new cursor and the events
fired, in order. -/
def stepForward (steps : List AnimationStep) (index : Int) : Int × List PEvent :=
  let p : Int × List PEvent :=
    if index < (steps.length : Int) then (index + 1, emitCurrent steps index)
    else (index, [])
  if (steps.length : Int) ≤ p.1 then (p.1, p.2 ++ [.complete]) else p

/-- One `tick` chain of `play` (useCanvas.ts), with explicit fuel: each
tick either fires completion and stops, or emits the current step,
advances, and schedules the next tick. -/
def playTicks (steps : List AnimationStep) : Nat → Int → Int × List PEvent
  | 0, index => (index, [])
  | fuel + 1, index =>
      if (steps.length : Int) ≤ index then (index, [.complete])
      else
        let evs := emitCurrent steps index
        let res := playTicks steps fuel (index + 1)
        (res.1, evs ++ res.2)

/-- Embedding of `play` (useCanvas.ts) run to completion: the timer delay
`baseDelay / speed` affects only real time, never the event order, and
`steps.length - index + 1` ticks always reach completion. -/
def play (steps : List AnimationStep) (index : Int) : Int × List PEvent :=
  playTicks steps (((steps.length : Int) - index).toNat + 1) index

/-- Embedding of `stepBackward` (useCanvas.ts). -/
def stepBackward (steps : List AnimationStep) (index : Int) : Int × List PEvent :=
  if 0 < index then (index - 1, emitCurrent steps (index - 1)) else (index, [])

/-- Embedding of `goToStart` (useCanvas.ts). -/
def goToStart (steps : List AnimationStep) : Int × List PEvent :=
  (0, emitCurrent steps 0)

/-- Embedding of `goToEnd` (useCanvas.ts): emits the last step, then leaves the
cursor past the end. -/
def goToEnd (steps : List AnimationStep) : Int × List PEvent :=
  ((steps.length : Int), emitCurrent steps ((steps.length : Int) - 1))

-- ── Helper predicates for the statements ───────────────────────────────────

/-- Keys of a highlight map. -/
def keysOf (m : List (Int × HighlightType)) : List Int := m.map Prod.fst

/-- The node values a step highlights, except the step's own
`activeNode` (whose transient highlight is overlaid on top of the
cumulative visited map by `makeTraversalStep`). -/
def nonActiveKeys (st : AnimationStep) : List Int :=
  match st.activeNode with
  | none => keysOf st.highlightNodes
  | some a => (keysOf st.highlightNodes).filter (fun n => n ≠ a)

/-- Every `codeLine` a step list carries is `< bound`. -/
def stepsLinesOK (bound : Nat) (l : List AnimationStep) : Prop :=
  ∀ st ∈ l, ∀ n, st.codeLine = some n → n < bound

/-- The steps strictly after the first step whose `codeLine` is the
`result = node.key` line (line 4) of the `selectKth` pseudocode. -/
def afterFirstFound (l : List AnimationStep) : List AnimationStep :=
  (l.dropWhile (fun st => ! decide (st.codeLine = some 4))).drop 1

/-- Monotone-highlight order between two steps: every highlighted edge
of the first is highlighted in the second, and every highlighted node of
the first — except its transient active node — is highlighted in the
second. -/
def stepLE (st1 st2 : AnimationStep) : Prop :=
  (∀ e ∈ st1.highlightEdges, e ∈ st2.highlightEdges) ∧
  (∀ n ∈ nonActiveKeys st1, n ∈ keysOf st2.highlightNodes)

/-- A step is covered by a visited-node map and visited-edge list. -/
def stepOKof (vn : List (Int × HighlightType)) (ve : List (Int × Int))
    (st : AnimationStep) : Prop :=
  (∀ e ∈ st.highlightEdges, e ∈ ve) ∧ (∀ n ∈ nonActiveKeys st, n ∈ keysOf vn)

/-- Invariant of the traversal walks: the emitted steps grow
monotonically and are all covered by the current visited state. -/
def TravInv (s : TravState) : Prop :=
  List.Pairwise stepLE s.steps ∧
  ∀ st ∈ s.steps, stepOKof s.visitedNodes s.visitedEdges st

/-- Number of steps carrying a given `codeLine`. -/
def countLine (n : Nat) (l : List AnimationStep) : Nat :=
  (l.filter (fun st => decide (st.codeLine = some n))).length

-- ── Heap model for the non-mutation property ───────────────────────────────
--
-- `cloneTree`, the inner `insert` of `insertNode` and the inner `remove`
-- of `removeNode` mutate JavaScript objects in place; to state that the
-- caller's original nodes are untouched, those three functions are also
-- embedded against an explicit heap of `TreeNode` cells.  Step recording
-- writes only to the step arrays, never to tree cells, and is omitted
-- here (it is covered by the pure embedding above).

/-- A `TreeNode` object on the heap: its `value` field and the addresses
of the objects its `left`/`right` fields point to (`none` = null). -/
structure Cell where
  value : Int
  left : Option Nat
  right : Option Nat
deriving DecidableEq, Repr

/-- The heap: an address is an index into the list; allocating a fresh
object appends a cell. -/
abbrev Heap := List Cell

/-- Read the tree reachable from an address.  `fuel` bounds the depth;
fuel `h.length + 1` fully reads any acyclic reachable structure (on a
cyclic one the source functions would not terminate, and `none` is
returned here). -/
def readTree (h : Heap) : Nat → Option Nat → Option Tree
  | _, none => some .leaf
  | 0, some _ => none
  | fuel + 1, some a =>
      match h.get? a with
      | none => none
      | some c =>
          match readTree h fuel c.left, readTree h fuel c.right with
          | some l, some r => some (.node c.value l r)
          | _, _ => none

/-- A tree decorated with the heap addresses of its nodes (the shape of
a freshly allocated clone). -/
inductive LTree where
  | leaf : LTree
  | node (addr : Nat) (value : Int) (left right : LTree) : LTree
deriving DecidableEq, Repr

/-- Address of the root (`none` for null). -/
def LTree.rootAddr : LTree → Option Nat
  | .leaf => none
  | .node a _ _ _ => some a

/-- All node addresses. -/
def LTree.addrs : LTree → List Nat
  | .leaf => []
  | .node a _ l r => a :: (l.addrs ++ r.addrs)

/-- Value of the node at the end of the left spine (the heap reading of
`findMin`, taken before any cell of the subtree has been written). -/
def LTree.minVal (v : Int) : LTree → Int
  | .leaf => v
  | .node _ lv ll _ => LTree.minVal lv ll

/-- Heap effect of `cloneTree` (bst.ts): a clone of a tree shaped like
`t` allocates fresh cells — left subtree first, then right, then the
node itself, matching the evaluation order of the object literal. -/
def allocTree : Tree → Heap → Heap × LTree
  | .leaf, h => (h, .leaf)
  | .node v l r, h =>
      let resL := allocTree l h
      let resR := allocTree r resL.1
      (resR.1 ++ [⟨v, resL.2.rootAddr, resR.2.rootAddr⟩],
        .node resR.1.length v resL.2 resR.2)

/-- Embedding of `node.left = child` at address `a`. -/
def heapSetLeft (h : Heap) (a : Nat) (child : Option Nat) : Heap :=
  match h.get? a with
  | some c => h.set a { c with left := child }
  | none => h

/-- Embedding of `node.right = child` at address `a`. -/
def heapSetRight (h : Heap) (a : Nat) (child : Option Nat) : Heap :=
  match h.get? a with
  | some c => h.set a { c with right := child }
  | none => h

/-- Embedding of `node.value = v` at address `a`. -/
def heapSetValue (h : Heap) (a : Nat) (v : Int) : Heap :=
  match h.get? a with
  | some c => h.set a { c with value := v }
  | none => h

/-- Heap semantics of the inner `insert` of `insertNode` (bst.ts),
guided by the located clone `lt` (each cell still holds its clone-time
content when first read, so the guide agrees with the heap). -/
def insertH (value : Int) : LTree → Heap → Heap × Nat
  | .leaf, h => (h ++ [⟨value, none, none⟩], h.length)
  | .node a x l r, h =>
      if value < x then
        let res := insertH value l h
        (heapSetLeft res.1 a (some res.2), a)
      else if x < value then
        let res := insertH value r h
        (heapSetRight res.1 a (some res.2), a)
      else (h, a)

/-- Heap semantics of the inner `remove` of `removeNode` (bst.ts); as in
the source, the comparison value is always the captured outer `value`,
also in the recursive call of the two-children case. -/
def removeH (value : Int) : LTree → Heap → Heap × Option Nat
  | .leaf, h => (h, none)
  | .node a x l r, h =>
      if value < x then
        let res := removeH value l h
        (heapSetLeft res.1 a res.2, some a)
      else if x < value then
        let res := removeH value r h
        (heapSetRight res.1 a res.2, some a)
      else
        match l, r with
        | .leaf, .leaf => (h, none)
        | .leaf, _ => (h, r.rootAddr)
        | _, .leaf => (h, l.rootAddr)
        | .node _ _ _ _, .node _ rv rl _ =>
            let sv := LTree.minVal rv rl
            let h1 := heapSetValue h a sv
            let res := removeH value r h1
            (heapSetRight res.1 a res.2, some a)

/-- Embedding of `insertNode` (bst.ts) against the heap: empty tree allocates the new
root directly, otherwise clone then insert into the clone. -/
def insertNodeH (h : Heap) (root : Option Nat) (value : Int) : Heap × Option Nat :=
  match root with
  | none => (h ++ [⟨value, none, none⟩], some h.length)
  | some a =>
      match readTree h (h.length + 1) (some a) with
      | none => (h, some a)
      | some t =>
          let resC := allocTree t h
          let resI := insertH value resC.2 resC.1
          (resI.1, some resI.2)

/-- Embedding of `removeNode` (bst.ts) against the heap: clone (null stays null),
then remove from the clone. -/
def removeNodeH (h : Heap) (root : Option Nat) (value : Int) : Heap × Option Nat :=
  match root with
  | none => (h, none)
  | some a =>
      match readTree h (h.length + 1) (some a) with
      | none => (h, some a)
      | some t =>
          let resC := allocTree t h
          let resR := removeH value resC.2 resC.1
          (resR.1, resR.2)

-- ── Concrete inputs used by witnesses and counterexamples ──────────────────

/-- The tree built by inserting 2, 1, 3 into the empty tree. -/
def bugTree : Tree := (insertNode (insertNode (insertNode .leaf 2).1 1).1 3).1

/-- A two-node tree: 2 with left child 1. -/
def twoTree : Tree := .node 2 (.node 1 .leaf .leaf) .leaf

/-- A two-node tree: 50 with left child 30. -/
def fiftyTree : Tree := .node 50 (.node 30 .leaf .leaf) .leaf

/-- A one-step list for exercising the playback controller. -/
def demoSteps : List AnimationStep := [makeStep .leaf "demo" [] [] none none]

/-- A two-cell heap holding the tree 5/(1,·) at address 0. -/
def demoHeap : Heap := [⟨5, some 1, none⟩, ⟨1, none, none⟩]

-- ═══════════════════════════ Theorems ═════════════════════════════════════

-- ── Basic structural lemmas ────────────────────────────────────────────────

theorem cloneTree_eq (t : Tree) : cloneTree t = t := by
  induction t with
  | leaf => rfl
  | node v l r ihl ihr => simp [cloneTree, ihl, ihr]

theorem keysOf_cons (p : Int × HighlightType) (l : List (Int × HighlightType)) :
    keysOf (p :: l) = p.1 :: keysOf l := rfl

theorem mem_keysOf_mapSet {m : List (Int × HighlightType)} {k n : Int} {v : HighlightType} :
    n ∈ keysOf (mapSet m k v) ↔ n = k ∨ n ∈ keysOf m := by
  induction m with
  | nil => simp [mapSet, keysOf]
  | cons p rest ih =>
      obtain ⟨k', v'⟩ := p
      by_cases h : k' = k
      · subst h
        rw [mapSet, if_pos rfl, keysOf_cons, keysOf_cons]
        simp
      · rw [mapSet, if_neg h, keysOf_cons, keysOf_cons]
        simp only [List.mem_cons, ih]
        constructor
        · rintro (h1 | h1 | h1) <;> tauto
        · rintro (rfl | h1 | h1) <;> tauto

theorem mem_keysOf_foldl_mapSet {l : List (Int × HighlightType)} {n : Int} :
    ∀ acc, n ∈ keysOf (l.foldl (fun m p => mapSet m p.1 p.2) acc) ↔
      n ∈ keysOf acc ∨ n ∈ keysOf l := by
  induction l with
  | nil => intro acc; simp [keysOf]
  | cons p rest ih =>
      intro acc
      rw [List.foldl_cons, ih, mem_keysOf_mapSet, keysOf_cons, List.mem_cons]
      tauto

theorem mem_keysOf_mapOfList {l : List (Int × HighlightType)} {n : Int} :
    n ∈ keysOf (mapOfList l) ↔ n ∈ keysOf l := by
  rw [mapOfList, mem_keysOf_foldl_mapSet]
  simp [keysOf]

theorem allLt_iff {t : Tree} {b : Int} :
    allLt t b = true ↔ ∀ x ∈ inorderVals t, x < b := by
  induction t with
  | leaf => simp [allLt, inorderVals]
  | node v l r ihl ihr =>
      rw [show allLt (.node v l r) b = (decide (v < b) && allLt l b && allLt r b) from rfl]
      simp only [Bool.and_eq_true, decide_eq_true_eq, ihl, ihr, inorderVals,
        List.mem_append, List.mem_cons]
      constructor
      · rintro ⟨⟨hv, hl⟩, hr⟩ x hx
        rcases hx with hx | rfl | hx
        · exact hl x hx
        · exact hv
        · exact hr x hx
      · intro h
        exact ⟨⟨h v (by tauto), fun x hx => h x (by tauto)⟩, fun x hx => h x (by tauto)⟩

theorem allGt_iff {t : Tree} {b : Int} :
    allGt t b = true ↔ ∀ x ∈ inorderVals t, b < x := by
  induction t with
  | leaf => simp [allGt, inorderVals]
  | node v l r ihl ihr =>
      rw [show allGt (.node v l r) b = (decide (b < v) && allGt l b && allGt r b) from rfl]
      simp only [Bool.and_eq_true, decide_eq_true_eq, ihl, ihr, inorderVals,
        List.mem_append, List.mem_cons]
      constructor
      · rintro ⟨⟨hv, hl⟩, hr⟩ x hx
        rcases hx with hx | rfl | hx
        · exact hl x hx
        · exact hv
        · exact hr x hx
      · intro h
        exact ⟨⟨h v (by tauto), fun x hx => h x (by tauto)⟩, fun x hx => h x (by tauto)⟩

theorem isBST_node {v : Int} {l r : Tree} :
    isBST (.node v l r) = true ↔
      allLt l v = true ∧ allGt r v = true ∧ isBST l = true ∧ isBST r = true := by
  simp [isBST, Bool.and_eq_true]
  tauto

theorem pairwise_inorderVals {t : Tree} (h : isBST t = true) :
    List.Pairwise (· < ·) (inorderVals t) := by
  induction t with
  | leaf => simp [inorderVals]
  | node v l r ihl ihr =>
      rw [isBST_node] at h
      obtain ⟨hlt, hgt, hbl, hbr⟩ := h
      rw [inorderVals, List.pairwise_append]
      refine ⟨ihl hbl, ?_, ?_⟩
      · rw [List.pairwise_cons]
        exact ⟨fun y hy => (allGt_iff.mp hgt) y hy, ihr hbr⟩
      · intro x hx y hy
        have hxv : x < v := (allLt_iff.mp hlt) x hx
        rcases List.mem_cons.mp hy with rfl | hy'
        · exact hxv
        · exact lt_trans hxv ((allGt_iff.mp hgt) y hy')

theorem inorderVals_length (t : Tree) : (inorderVals t).length = countNodes t := by
  induction t with
  | leaf => rfl
  | node v l r ihl ihr => simp [inorderVals, countNodes, ihl, ihr]; omega

-- ── C1: search correctness ─────────────────────────────────────────────────

theorem searchGo_found_iff (root : Tree) (v : Int) :
    ∀ (t : Tree), isBST t = true →
      ∀ parent pn pe st, ((searchGo root v t parent pn pe st).1 = true ↔ v ∈ inorderVals t) := by
  intro t
  induction t with
  | leaf => intro _ parent pn pe st; simp [searchGo, inorderVals]
  | node x l r ihl ihr =>
      intro h parent pn pe st
      rw [isBST_node] at h
      obtain ⟨hlt, hgt, hbl, hbr⟩ := h
      by_cases hvx : v = x
      · subst hvx
        simp [searchGo, inorderVals]
      · by_cases hlt' : v < x
        · have hne : ¬ v ∈ inorderVals r := by
            intro hmem
            exact absurd ((allGt_iff.mp hgt) v hmem) (by omega)
          simp only [searchGo, if_neg hvx, if_pos hlt']
          rw [ihl hbl]
          simp [inorderVals]
          tauto
        · have hgt' : x < v := by omega
          have hne : ¬ v ∈ inorderVals l := by
            intro hmem
            exact absurd ((allLt_iff.mp hlt) v hmem) (by omega)
          simp only [searchGo, if_neg hvx, if_neg hlt']
          rw [ihr hbr]
          simp [inorderVals]
          tauto

/-- C1: for every binary search tree `T` and value `v`,
`searchNode(T, v).found` is true iff some node of `T` holds `v`
(membership in the in-order value list). -/
theorem searchNode_found_iff_mem (t : Tree) (v : Int) (h : isBST t = true) :
    (searchNode t v).1 = true ↔ v ∈ inorderVals t :=
  searchGo_found_iff t v t h none [] [] []

/-- Witness for C1 at the tree 2/(1,·) and the values 1 and 5. -/
theorem searchNode_found_iff_mem_wit :
    (isBST twoTree = true) ∧
      ((searchNode twoTree 1).1 = true ↔ 1 ∈ inorderVals twoTree) ∧
      ((searchNode twoTree 5).1 = true ↔ 5 ∈ inorderVals twoTree) :=
  ⟨by decide, searchNode_found_iff_mem twoTree 1 (by decide),
    searchNode_found_iff_mem twoTree 5 (by decide)⟩

-- ── C8: inserting a present value is a structural no-op ────────────────────

theorem insertGo_dup (rt : Tree) (v : Int) :
    ∀ (t : Tree), isBST t = true → v ∈ inorderVals t →
      ∀ parent s, (insertGo rt v t parent s).1 = t := by
  intro t
  induction t with
  | leaf => intro _ h2; simp [inorderVals] at h2
  | node x l r ihl ihr =>
      intro h1 h2 parent s
      rw [isBST_node] at h1
      obtain ⟨hlt, hgt, hbl, hbr⟩ := h1
      by_cases hvx : v = x
      · subst hvx
        simp [insertGo]
      · by_cases hlt' : v < x
        · have hmem : v ∈ inorderVals l := by
            rw [inorderVals] at h2
            rcases List.mem_append.mp h2 with h | h
            · exact h
            · rcases List.mem_cons.mp h with rfl | h
              · omega
              · exact absurd ((allGt_iff.mp hgt) v h) (by omega)
          simp only [insertGo, if_neg hvx, if_pos hlt']
          simp [ihl hbl hmem]
        · have hgt' : x < v := by omega
          have hmem : v ∈ inorderVals r := by
            rw [inorderVals] at h2
            rcases List.mem_append.mp h2 with h | h
            · exact absurd ((allLt_iff.mp hlt) v h) (by omega)
            · rcases List.mem_cons.mp h with rfl | h
              · omega
              · exact h
          simp only [insertGo, if_neg hvx, if_neg hlt', if_pos hgt']
          simp [ihr hbr hmem]

/-- C8: for every BST `T` and value `v` already present in `T`,
`insertNode(T, v)` returns a root structurally equal to `T` (same shape,
same values, node count unchanged). -/
theorem insertNode_dup_noop (t : Tree) (v : Int)
    (h1 : isBST t = true) (h2 : v ∈ inorderVals t) :
    (insertNode t v).1 = t ∧ countNodes (insertNode t v).1 = countNodes t := by
  have hmain : (insertNode t v).1 = t := by
    cases t with
    | leaf => simp [inorderVals] at h2
    | node x l r =>
        show (insertGo (cloneTree (.node x l r)) v (cloneTree (.node x l r)) none ⟨[], [], []⟩).1 = _
        rw [cloneTree_eq]
        exact insertGo_dup _ v _ h1 h2 none _
  exact ⟨hmain, by rw [hmain]⟩

/-- Witness for C8 at the tree 2/(1,·) with the duplicate value 1. -/
theorem insertNode_dup_noop_wit :
    (isBST twoTree = true) ∧ (1 ∈ inorderVals twoTree) ∧
      (insertNode twoTree 1).1 = twoTree ∧
      countNodes (insertNode twoTree 1).1 = countNodes twoTree :=
  ⟨by decide, by decide,
    (insertNode_dup_noop twoTree 1 (by decide) (by decide)).1,
    (insertNode_dup_noop twoTree 1 (by decide) (by decide)).2⟩

-- ── C2 / C3: the two-children branch of `removeNode` is broken ─────────────
--
-- `remove` always searches for the captured outer `value`; the recursive
-- call of the two-children case (`node.right = remove(node.right, ...)`)
-- therefore looks for the original value in the right subtree — where it
-- cannot be — instead of removing the successor, whose node survives as
-- a duplicate.  This contradicts the source's own pseudocode
-- ("remove successor from right", bst.ts line 174 and the Remove entry
-- of pseudocode.ts).

/-- C2 (code bug): starting from the BST built by inserting 2, 1, 3,
`removeNode(T, 2)` returns the root 3 with left child 1 and right child
3 — the successor value 3 is duplicated and the strict BST invariant is
violated. -/
theorem removeNode_breaks_bst :
    isBST bugTree = true ∧
    (removeNode bugTree 2).1 =
      Tree.node 3 (Tree.node 1 .leaf .leaf) (Tree.node 3 .leaf .leaf) ∧
    isBST (removeNode bugTree 2).1 = false := by decide

/-- C3 (code bug): on the same input, the removed tree keeps node count
3 instead of `countNodes T - 1 = 2`: value 2 is gone but the successor 3
now occurs twice. -/
theorem removeNode_count_not_shrunk :
    (2 ∈ inorderVals bugTree) ∧ countNodes bugTree = 3 ∧
    countNodes (removeNode bugTree 2).1 = 3 ∧
    ¬ countNodes (removeNode bugTree 2).1 = countNodes bugTree - 1 ∧
    inorderVals (removeNode bugTree 2).1 = [1, 3, 3] := by decide

-- ── C5: playback replay ────────────────────────────────────────────────────

theorem emitCurrent_inbounds (steps : List AnimationStep) (i : Nat) (h : i < steps.length) :
    emitCurrent steps (i : Int) = [PEvent.step (steps.get ⟨i, h⟩)] := by
  rw [emitCurrent, if_pos (by constructor <;> omega)]
  rw [show ((i : Int)).toNat = i from rfl]
  rw [List.get?_eq_getElem?, List.getElem?_eq_getElem h]
  rfl

theorem playTicks_run (steps : List AnimationStep) :
    ∀ (fuel : Nat) (i : Nat), i ≤ steps.length → steps.length - i < fuel →
      playTicks steps fuel (i : Int) =
        ((steps.length : Int), (steps.drop i).map PEvent.step ++ [PEvent.complete]) := by
  intro fuel
  induction fuel with
  | zero => intro i _ h2; omega
  | succ fuel ih =>
      intro i h1 h2
      by_cases hi : i = steps.length
      · subst hi
        rw [playTicks, if_pos (by omega)]
        simp
      · have hlt : i < steps.length := by omega
        rw [playTicks, if_neg (by omega)]
        rw [show ((i : Int) + 1) = ((i + 1 : Nat) : Int) by omega]
        rw [ih (i + 1) (by omega) (by omega)]
        rw [emitCurrent_inbounds steps i hlt]
        rw [List.drop_eq_getElem_cons hlt, List.map_cons]
        rfl

/-- C5 (amended): playing a step list from the start emits every step
exactly once in index order followed by exactly one completion
notification; but any `stepForward` call made once the cursor has
reached the list length fires the completion notification again. -/
theorem playback_replay (steps : List AnimationStep) :
    play steps 0 = ((steps.length : Int), steps.map PEvent.step ++ [PEvent.complete]) ∧
    ∀ i : Int, (steps.length : Int) ≤ i → stepForward steps i = (i, [PEvent.complete]) := by
  constructor
  · rw [play]
    rw [show ((0 : Int) = ((0 : Nat) : Int)) from rfl]
    rw [show (((steps.length : Int) - ((0 : Nat) : Int)).toNat + 1) = steps.length + 1 by omega]
    rw [playTicks_run steps (steps.length + 1) 0 (by omega) (by omega)]
    simp
  · intro i hi
    have h1 : ¬ i < (steps.length : Int) := by omega
    simp [stepForward, h1, hi]

/-- Witness for C5 (amended) on the one-step demo list. -/
theorem playback_replay_wit :
    play demoSteps 0 = ((demoSteps.length : Int), demoSteps.map PEvent.step ++ [PEvent.complete]) ∧
    stepForward demoSteps 2 = (2, [PEvent.complete]) :=
  ⟨(playback_replay demoSteps).1, (playback_replay demoSteps).2 2 (by decide)⟩

/-- C5 counterexample: with a one-step list, the first `stepForward`
finishes the run (emits the step, then completion); the claim says
completion is not re-fired afterwards, yet the next `stepForward` fires
completion again. -/
theorem stepForward_refires_completion :
    stepForward demoSteps 0 =
      (1, [PEvent.step (makeStep .leaf "demo" [] [] none none), PEvent.complete]) ∧
    stepForward demoSteps 1 = (1, [PEvent.complete]) := by decide

-- ── C4: non-mutation of the caller's tree ──────────────────────────────────

theorem append_get?_lt (h : Heap) (e : List Cell) (b : Nat) (hb : b < h.length) :
    (h ++ e).get? b = h.get? b := by
  rw [List.get?_eq_getElem?, List.get?_eq_getElem?, List.getElem?_append, if_pos hb]

theorem allocTree_append (t : Tree) : ∀ h : Heap, ∃ ext, (allocTree t h).1 = h ++ ext := by
  induction t with
  | leaf => intro h; exact ⟨[], by simp [allocTree]⟩
  | node v l r ihl ihr =>
      intro h
      obtain ⟨e1, h1⟩ := ihl h
      obtain ⟨e2, h2⟩ := ihr (allocTree l h).1
      refine ⟨e1 ++ e2 ++ [⟨v, (allocTree l h).2.rootAddr,
        (allocTree r (allocTree l h).1).2.rootAddr⟩], ?_⟩
      show (allocTree r (allocTree l h).1).1 ++ [_] = _
      rw [h2, h1]
      simp

theorem allocTree_length_le (t : Tree) (h : Heap) :
    h.length ≤ (allocTree t h).1.length := by
  obtain ⟨e, he⟩ := allocTree_append t h
  rw [he]
  simp

theorem allocTree_addrs_ge (t : Tree) : ∀ (h : Heap), ∀ x ∈ (allocTree t h).2.addrs,
    h.length ≤ x := by
  induction t with
  | leaf => intro h x hx; simp [allocTree, LTree.addrs] at hx
  | node v l r ihl ihr =>
      intro h x hx
      have hll : h.length ≤ (allocTree l h).1.length := allocTree_length_le l h
      have hrl : (allocTree l h).1.length ≤ (allocTree r (allocTree l h).1).1.length :=
        allocTree_length_le r (allocTree l h).1
      show h.length ≤ x
      have hx' : x ∈ ((allocTree r (allocTree l h).1).1.length ::
          ((allocTree l h).2.addrs ++ (allocTree r (allocTree l h).1).2.addrs)) := hx
      rcases List.mem_cons.mp hx' with rfl | hx''
      · omega
      · rcases List.mem_append.mp hx'' with hm | hm
        · exact ihl h x hm
        · exact le_trans hll (ihr (allocTree l h).1 x hm)

theorem heapSetLeft_get? (h : Heap) (a : Nat) (c : Option Nat) (b : Nat) (hne : b ≠ a) :
    (heapSetLeft h a c).get? b = h.get? b := by
  rw [heapSetLeft]
  cases h.get? a with
  | none => rfl
  | some cell =>
      rw [List.get?_eq_getElem?, List.get?_eq_getElem?]
      exact List.getElem?_set_ne (fun he => hne he.symm)

theorem heapSetRight_get? (h : Heap) (a : Nat) (c : Option Nat) (b : Nat) (hne : b ≠ a) :
    (heapSetRight h a c).get? b = h.get? b := by
  rw [heapSetRight]
  cases h.get? a with
  | none => rfl
  | some cell =>
      rw [List.get?_eq_getElem?, List.get?_eq_getElem?]
      exact List.getElem?_set_ne (fun he => hne he.symm)

theorem heapSetValue_get? (h : Heap) (a : Nat) (v : Int) (b : Nat) (hne : b ≠ a) :
    (heapSetValue h a v).get? b = h.get? b := by
  rw [heapSetValue]
  cases h.get? a with
  | none => rfl
  | some cell =>
      rw [List.get?_eq_getElem?, List.get?_eq_getElem?]
      exact List.getElem?_set_ne (fun he => hne he.symm)

theorem heapSetLeft_length (h : Heap) (a : Nat) (c : Option Nat) :
    (heapSetLeft h a c).length = h.length := by
  rw [heapSetLeft]; cases h.get? a <;> simp

theorem heapSetRight_length (h : Heap) (a : Nat) (c : Option Nat) :
    (heapSetRight h a c).length = h.length := by
  rw [heapSetRight]; cases h.get? a <;> simp

theorem heapSetValue_length (h : Heap) (a : Nat) (v : Int) :
    (heapSetValue h a v).length = h.length := by
  rw [heapSetValue]; cases h.get? a <;> simp

theorem insertH_preserves (v : Int) : ∀ (lt : LTree) (h : Heap) (n : Nat),
    (∀ x ∈ lt.addrs, n ≤ x) → n ≤ h.length →
    (∀ b, b < n → (insertH v lt h).1.get? b = h.get? b) ∧
      n ≤ (insertH v lt h).1.length := by
  intro lt
  induction lt with
  | leaf =>
      intro h n _ hn
      refine ⟨fun b hb => append_get?_lt h _ b (by omega), ?_⟩
      show n ≤ (h ++ [(⟨v, none, none⟩ : Cell)]).length
      rw [List.length_append]
      omega
  | node a x l r ihl ihr =>
      intro h n haddr hn
      have ha : n ≤ a := haddr a (by simp [LTree.addrs])
      have hl' : ∀ y ∈ l.addrs, n ≤ y := fun y hy => haddr y (by simp [LTree.addrs]; tauto)
      have hr' : ∀ y ∈ r.addrs, n ≤ y := fun y hy => haddr y (by simp [LTree.addrs]; tauto)
      by_cases h1 : v < x
      · obtain ⟨hres, hlen⟩ := ihl h n hl' hn
        simp only [insertH, if_pos h1]
        constructor
        · intro b hb
          rw [heapSetLeft_get? _ _ _ b (by omega), hres b hb]
        · rw [heapSetLeft_length]; exact hlen
      · by_cases h2 : x < v
        · obtain ⟨hres, hlen⟩ := ihr h n hr' hn
          simp only [insertH, if_neg h1, if_pos h2]
          constructor
          · intro b hb
            rw [heapSetRight_get? _ _ _ b (by omega), hres b hb]
          · rw [heapSetRight_length]; exact hlen
        · simp only [insertH, if_neg h1, if_neg h2]
          exact ⟨fun b _ => by trivial, hn⟩

theorem removeH_preserves (v : Int) : ∀ (lt : LTree) (h : Heap) (n : Nat),
    (∀ x ∈ lt.addrs, n ≤ x) → n ≤ h.length →
    (∀ b, b < n → (removeH v lt h).1.get? b = h.get? b) ∧
      n ≤ (removeH v lt h).1.length := by
  intro lt
  induction lt with
  | leaf => intro h n _ hn; exact ⟨fun b _ => by trivial, hn⟩
  | node a x l r ihl ihr =>
      intro h n haddr hn
      have ha : n ≤ a := haddr a (by simp [LTree.addrs])
      have hl' : ∀ y ∈ l.addrs, n ≤ y := fun y hy => haddr y (by simp [LTree.addrs]; tauto)
      have hr' : ∀ y ∈ r.addrs, n ≤ y := fun y hy => haddr y (by simp [LTree.addrs]; tauto)
      by_cases h1 : v < x
      · obtain ⟨hres, hlen⟩ := ihl h n hl' hn
        simp only [removeH, if_pos h1]
        constructor
        · intro b hb
          rw [heapSetLeft_get? _ _ _ b (by omega), hres b hb]
        · rw [heapSetLeft_length]; exact hlen
      · by_cases h2 : x < v
        · obtain ⟨hres, hlen⟩ := ihr h n hr' hn
          simp only [removeH, if_neg h1, if_pos h2]
          constructor
          · intro b hb
            rw [heapSetRight_get? _ _ _ b (by omega), hres b hb]
          · rw [heapSetRight_length]; exact hlen
        · simp only [removeH, if_neg h1, if_neg h2]
          cases l with
          | leaf =>
              cases r with
              | leaf => exact ⟨fun b _ => by trivial, hn⟩
              | node ra rx rl rr => exact ⟨fun b _ => by trivial, hn⟩
          | node la lx ll lr =>
              cases r with
              | leaf => exact ⟨fun b _ => by trivial, hn⟩
              | node ra rx rl rr =>
                  have hn1 : n ≤ (heapSetValue h a (LTree.minVal rx rl)).length := by
                    rw [heapSetValue_length]; exact hn
                  obtain ⟨hres, hlen⟩ :=
                    ihr (heapSetValue h a (LTree.minVal rx rl)) n hr' hn1
                  constructor
                  · intro b hb
                    rw [heapSetRight_get? _ _ _ b (by omega), hres b hb,
                      heapSetValue_get? _ _ _ b (by omega)]
                  · rw [heapSetRight_length]; exact hlen

/-- C4: `insertNode` and `removeNode` never write to any cell of the
caller's heap; every address that existed before the call still holds
the same cell (same value, same left/right links) afterwards — only the
returned new root reflects the change. -/
theorem insert_remove_nonmutation (h : Heap) (root : Option Nat) (v : Int) :
    ∀ b, b < h.length →
      (insertNodeH h root v).1.get? b = h.get? b ∧
      (removeNodeH h root v).1.get? b = h.get? b := by
  intro b hb
  cases root with
  | none =>
      exact ⟨append_get?_lt h _ b hb, rfl⟩
  | some a =>
      cases hr : readTree h (h.length + 1) (some a) with
      | none => simp [insertNodeH, removeNodeH, hr]
      | some t =>
          obtain ⟨e, he⟩ := allocTree_append t h
          have hlen : h.length ≤ (allocTree t h).1.length := allocTree_length_le t h
          have haddr := allocTree_addrs_ge t h
          have hins := (insertH_preserves v (allocTree t h).2 (allocTree t h).1
            h.length haddr hlen).1 b hb
          have hrem := (removeH_preserves v (allocTree t h).2 (allocTree t h).1
            h.length haddr hlen).1 b hb
          have hiu : (insertNodeH h (some a) v).1 =
              (insertH v (allocTree t h).2 (allocTree t h).1).1 := by
            simp [insertNodeH, hr]
          have hru : (removeNodeH h (some a) v).1 =
              (removeH v (allocTree t h).2 (allocTree t h).1).1 := by
            simp [removeNodeH, hr]
          constructor
          · rw [hiu, hins, he, append_get?_lt h e b hb]
          · rw [hru, hrem, he, append_get?_lt h e b hb]

/-- Witness for C4 on a concrete two-cell heap. -/
theorem insert_remove_nonmutation_wit :
    (0 < demoHeap.length) ∧
      ((insertNodeH demoHeap (some 0) 3).1.get? 0 = demoHeap.get? 0 ∧
       (removeNodeH demoHeap (some 0) 3).1.get? 0 = demoHeap.get? 0) :=
  ⟨by decide, insert_remove_nonmutation demoHeap (some 0) 3 0 (by decide)⟩

-- ── C6: selectKth returns the rank-k value ─────────────────────────────────

theorem kthWalk_stuck (root : Tree) (k : Int) (t : Tree) (s : KthState)
    (h : s.result.isSome) : kthWalk root k t s = s := by
  cases t with
  | leaf => rfl
  | node v l r => rw [kthWalk, if_pos h]

theorem kthWalk_nofind (root : Tree) (k : Int) :
    ∀ (t : Tree) (s : KthState), s.result = none →
      (k ≤ s.count ∨ s.count + ((inorderVals t).length : Int) < k) →
      (kthWalk root k t s).result = none ∧
      (kthWalk root k t s).count = s.count + ((inorderVals t).length : Int) := by
  intro t
  induction t with
  | leaf =>
      intro s hres _
      simp [kthWalk, inorderVals, hres]
  | node v l r ihl ihr =>
      intro s hres hrange
      have hlen : (inorderVals (Tree.node v l r)).length =
          (inorderVals l).length + 1 + (inorderVals r).length := by
        simp [inorderVals]; omega
      rw [hlen] at hrange ⊢
      simp only [kthWalk, hres, Option.isSome_none, Bool.false_eq_true, if_false]
      have h2 := ihl ⟨s.steps, s.visitedNodes, pushChildEdge v l s.visitedEdges,
        s.count, none⟩ rfl (by simp; omega)
      obtain ⟨h2r, h2c⟩ := h2
      simp only [h2r, h2c]
      rw [if_neg (by omega)]
      constructor
      · exact (ihr _ rfl (by simp; omega)).1
      · exact ((ihr _ rfl (by simp; omega)).2).trans (by simp; omega)


theorem get?_append_lt {α : Type} (l1 l2 : List α) (n : Nat) (h : n < l1.length) :
    (l1 ++ l2).get? n = l1.get? n := by
  rw [List.get?_eq_getElem?, List.get?_eq_getElem?, List.getElem?_append, if_pos h]

theorem get?_append_ge {α : Type} (l1 l2 : List α) (n : Nat) (h : l1.length ≤ n) :
    (l1 ++ l2).get? n = l2.get? (n - l1.length) := by
  rw [List.get?_eq_getElem?, List.get?_eq_getElem?, List.getElem?_append_right h]

theorem kthWalk_find (root : Tree) (k : Int) :
    ∀ (t : Tree) (s : KthState), s.result = none →
      s.count < k → k ≤ s.count + ((inorderVals t).length : Int) →
      (kthWalk root k t s).result = (inorderVals t).get? (k - s.count - 1).toNat ∧
      k ≤ (kthWalk root k t s).count := by
  intro t
  induction t with
  | leaf =>
      intro s _ h1 h2
      simp [inorderVals] at h2
      omega
  | node v l r ihl ihr =>
      intro s hres h1 h2
      have hlen : (inorderVals (Tree.node v l r)).length =
          (inorderVals l).length + 1 + (inorderVals r).length := by
        simp [inorderVals]; omega
      rw [hlen] at h2
      have hsplit : inorderVals (Tree.node v l r) = inorderVals l ++ v :: inorderVals r := rfl
      simp only [kthWalk, hres, Option.isSome_none, Bool.false_eq_true, if_false]
      by_cases hc1 : k ≤ s.count + ((inorderVals l).length : Int)
      · -- the k-th visit happens inside the left subtree
        obtain ⟨h2r, h2c⟩ := ihl ⟨s.steps, s.visitedNodes,
          pushChildEdge v l s.visitedEdges, s.count, none⟩ rfl (by simpa using h1)
          (by simp; omega)
        have hsome : ((inorderVals l).get? (k - s.count - 1).toNat).isSome := by
          rw [List.get?_eq_getElem?,
            List.getElem?_eq_getElem (show (k - s.count - 1).toNat < (inorderVals l).length by omega)]
          rfl
        simp only [h2r]
        rw [if_neg (by omega)]
        constructor
        · rw [kthWalk_stuck root k r]
          · show ((inorderVals l).get? (k - s.count - 1).toNat) = _
            rw [hsplit, get?_append_lt _ _ _ (by omega)]
          · simpa using hsome
        · rw [kthWalk_stuck root k r]
          · show k ≤ _ + 1
            omega
          · simpa using hsome
      · by_cases hc2 : k = s.count + ((inorderVals l).length : Int) + 1
        · -- the k-th visit is this node
          obtain ⟨h2r, h2c⟩ := kthWalk_nofind root k l ⟨s.steps, s.visitedNodes,
            pushChildEdge v l s.visitedEdges, s.count, none⟩ rfl (by simp; omega)
          simp only [h2r, h2c]
          rw [if_pos (by omega)]
          constructor
          · show some v = _
            rw [hsplit, get?_append_ge _ _ _ (by omega)]
            rw [show (k - s.count - 1).toNat - (inorderVals l).length = 0 by omega]
            rfl
          · show k ≤ s.count + ((inorderVals l).length : Int) + 1
            omega
        · -- the k-th visit happens inside the right subtree
          obtain ⟨h2r, h2c⟩ := kthWalk_nofind root k l ⟨s.steps, s.visitedNodes,
            pushChildEdge v l s.visitedEdges, s.count, none⟩ rfl (by simp; omega)
          simp only [h2r, h2c]
          rw [if_neg (by omega)]
          constructor
          · refine ((ihr _ rfl (by simp; omega) (by simp; omega)).1).trans ?_
            show (inorderVals r).get? (k - (s.count + ((inorderVals l).length : Int) + 1) - 1).toNat = _
            rw [hsplit, get?_append_ge _ _ _ (by omega)]
            rw [show (k - s.count - 1).toNat - (inorderVals l).length =
              (k - (s.count + ((inorderVals l).length : Int) + 1) - 1).toNat + 1 by omega]
            rw [List.get?_cons_succ]
          · exact (ihr _ rfl (by simp; omega) (by simp; omega)).2

/-- C6: on a BST, the in-order value list is strictly sorted (so its
entry at index `k - 1` is the rank-`k` value) and `selectKth(T, k)`
returns exactly that value for `1 <= k <= countNodes T`, and `null` for
every other `k` (including `k <= 0`). -/
theorem selectKth_rank (t : Tree) (h : isBST t = true) :
    List.Pairwise (· < ·) (inorderVals t) ∧
    (inorderVals t).length = countNodes t ∧
    ∀ k : Int,
      (1 ≤ k → k ≤ (countNodes t : Int) →
        (selectKth t k).1 = (inorderVals t).get? (k - 1).toNat) ∧
      ((k < 1 ∨ (countNodes t : Int) < k) → (selectKth t k).1 = none) := by
  refine ⟨pairwise_inorderVals h, inorderVals_length t, ?_⟩
  intro k
  have hcnt : ((inorderVals t).length : Int) = (countNodes t : Int) := by
    rw [inorderVals_length]
  constructor
  · intro hk1 hk2
    simp only [selectKth]
    have hfind := kthWalk_find t k t
      ⟨[makeStep t ("Select " ++ toString k ++ "-th smallest") [] [] (some 0) none],
        [], [], 0, none⟩ rfl (by simp; omega) (by simp; omega)
    simp only at hfind
    have he : (k - 0 - 1 : Int) = k - 1 := by ring
    rw [he] at hfind
    have hlt : (k - 1).toNat < (inorderVals t).length := by
      rw [inorderVals_length]; omega
    rcases hgx : (inorderVals t).get? (k - 1).toNat with _ | x
    · rw [List.get?_eq_getElem?] at hgx
      rw [List.getElem?_eq_getElem hlt] at hgx
      cases hgx
    · rw [hfind.1, hgx]
  · intro hk
    simp only [selectKth]
    obtain ⟨hr, hc⟩ := kthWalk_nofind t k t
      ⟨[makeStep t ("Select " ++ toString k ++ "-th smallest") [] [] (some 0) none],
        [], [], 0, none⟩ rfl (by simp; omega)
    rw [hr]

/-- Witness for C6 at the tree 2/(1,·) with k = 1 (in range) and k = 5
(out of range). -/
theorem selectKth_rank_wit :
    (isBST twoTree = true) ∧
      (selectKth twoTree 1).1 = (inorderVals twoTree).get? ((1 : Int) - 1).toNat ∧
      (selectKth twoTree 5).1 = none :=
  ⟨by decide,
    ((selectKth_rank twoTree (by decide)).2.2 1).1 (by decide) (by decide),
    ((selectKth_rank twoTree (by decide)).2.2 5).2 (by decide)⟩

-- ── C7: early termination of selectKth ─────────────────────────────────────

theorem countLine_append (n : Nat) (a b : List AnimationStep) :
    countLine n (a ++ b) = countLine n a + countLine n b := by
  simp [countLine, List.filter_append]

theorem countLine_zero_iff (n : Nat) (l : List AnimationStep) :
    countLine n l = 0 ↔ ∀ st ∈ l, ¬ st.codeLine = some n := by
  rw [countLine, List.length_eq_zero, List.filter_eq_nil_iff]
  simp

theorem dropWhile_append_of_all {α : Type} (p : α → Bool) (l1 l2 : List α)
    (h : ∀ x ∈ l1, p x = true) : (l1 ++ l2).dropWhile p = l2.dropWhile p := by
  induction l1 with
  | nil => rfl
  | cons x xs ih =>
      rw [List.cons_append, List.dropWhile_cons, if_pos (h x (by simp))]
      exact ih (fun y hy => h y (by simp [hy]))

theorem afterFirstFound_of_no4 (l : List AnimationStep) (h : countLine 4 l = 0) :
    afterFirstFound l = [] := by
  rw [afterFirstFound, List.dropWhile_eq_nil_iff.mpr, List.drop_nil]
  intro st hst
  have := (countLine_zero_iff 4 l).mp h st hst
  simpa using this

theorem afterFirstFound_append_right (a b : List AnimationStep)
    (h : countLine 4 a = 0) : afterFirstFound (a ++ b) = afterFirstFound b := by
  rw [afterFirstFound, afterFirstFound, dropWhile_append_of_all]
  intro st hst
  have := (countLine_zero_iff 4 a).mp h st hst
  simpa using this

theorem afterFirstFound_append_left (a b : List AnimationStep)
    (h : ¬ countLine 4 a = 0) : afterFirstFound (a ++ b) = afterFirstFound a ++ b := by
  have hne : ¬ (a.dropWhile (fun st => ! decide (st.codeLine = some 4))).isEmpty = true := by
    intro hemp
    apply h
    rw [(countLine_zero_iff 4 a)]
    have hall := List.dropWhile_eq_nil_iff.mp (List.isEmpty_iff.mp hemp)
    intro st hst hc
    have hx := hall st hst
    simp [hc] at hx
  have hlen : 1 ≤ (a.dropWhile (fun st => ! decide (st.codeLine = some 4))).length := by
    rcases hd : a.dropWhile (fun st => ! decide (st.codeLine = some 4)) with _ | ⟨x, xs⟩
    · rw [hd] at hne; simp at hne
    · rw [hd]; simp
  rw [afterFirstFound, afterFirstFound, List.dropWhile_append, if_neg hne]
  rw [List.drop_append_of_le_length hlen]

theorem kthWalk_char (root : Tree) (k : Int) :
    ∀ (t : Tree) (s : KthState), s.result = none → countLine 4 s.steps = 0 →
      (((kthWalk root k t s).result = none ∧
          countLine 4 (kthWalk root k t s).steps = 0) ∨
        ((kthWalk root k t s).result.isSome = true ∧
          k ≤ (kthWalk root k t s).count ∧
          countLine 4 (kthWalk root k t s).steps = 1 ∧
          (∀ st ∈ afterFirstFound (kthWalk root k t s).steps, st.codeLine = some 2) ∧
          countLine 2 (afterFirstFound (kthWalk root k t s).steps) ≤ treeHeight t)) := by
  intro t
  induction t with
  | leaf =>
      intro s hres h4
      exact Or.inl ⟨by simpa [kthWalk] using hres, by simpa [kthWalk] using h4⟩
  | node v l r ihl ihr =>
      intro s hres h4
      simp only [kthWalk, hres, Option.isSome_none, Bool.false_eq_true, if_false]
      have h2 := ihl ⟨s.steps, s.visitedNodes, pushChildEdge v l s.visitedEdges,
        s.count, none⟩ rfl (by simpa using h4)
      set s2 := kthWalk root k l (⟨s.steps, s.visitedNodes,
        pushChildEdge v l s.visitedEdges, s.count, none⟩ : KthState) with hs2
      rcases h2 with ⟨h2r, h2c4⟩ | ⟨h2some, h2k, h2c4, h2all, h2len⟩
      · -- the left walk did not find the k-th value
        simp only [h2r]
        by_cases hck : s2.count + 1 = k
        · rw [if_pos hck]
          refine Or.inr ⟨rfl, by simp; omega, ?_, ?_, ?_⟩
          · show countLine 4 ((s2.steps ++ [_]) ++ [_]) = 1
            rw [countLine_append, countLine_append, h2c4]
            simp [countLine, makeTraversalStep]
          · intro st hst
            rw [show afterFirstFound ((s2.steps ++ [_]) ++ [_]) = [] from ?_] at hst
            · cases hst
            · rw [afterFirstFound_append_right _ _ (by
                rw [countLine_append, h2c4]; simp [countLine, makeTraversalStep])]
              simp [afterFirstFound, makeTraversalStep, List.dropWhile]
          · rw [afterFirstFound_append_right _ _ (by
              rw [countLine_append, h2c4]; simp [countLine, makeTraversalStep])]
            simp [afterFirstFound, makeTraversalStep, List.dropWhile, countLine]
        · rw [if_neg hck]
          have h3 := ihr ⟨s2.steps ++
              [makeTraversalStep root
                ("Visit " ++ toString v ++ " (count=" ++ toString (s2.count + 1) ++ ")")
                v .visiting (mapSet s2.visitedNodes v .visiting) s2.visitedEdges 2],
              mapSet s2.visitedNodes v .visiting,
              pushChildEdge v r s2.visitedEdges, s2.count + 1, none⟩ rfl
            (by show countLine 4 (s2.steps ++ [_]) = 0
                rw [countLine_append, h2c4]
                simp [countLine, makeTraversalStep])
          rcases h3 with ⟨h3r, h3c4⟩ | ⟨h3some, h3k, h3c4, h3all, h3len⟩
          · exact Or.inl ⟨h3r, h3c4⟩
          · refine Or.inr ⟨h3some, h3k, h3c4, h3all, ?_⟩
            refine le_trans h3len ?_
            simp [treeHeight]
            omega
      · -- the left walk already found the k-th value
        rw [if_neg (by omega)]
        rw [kthWalk_stuck root k r _ (by simpa using h2some)]
        refine Or.inr ⟨by simpa using h2some, by simp; omega, ?_, ?_, ?_⟩
        · show countLine 4 (s2.steps ++ [_]) = 1
          rw [countLine_append, h2c4]
          simp [countLine, makeTraversalStep]
        · intro st hst
          rw [show afterFirstFound (s2.steps ++ [_]) = afterFirstFound s2.steps ++ [_] from
            afterFirstFound_append_left _ _ (by omega)] at hst
          rcases List.mem_append.mp hst with h | h
          · exact h2all st h
          · rcases List.mem_cons.mp h with rfl | h
            · simp [makeTraversalStep]
            · cases h
        · rw [show afterFirstFound (s2.steps ++ [_]) = afterFirstFound s2.steps ++ [_] from
            afterFirstFound_append_left _ _ (by omega)]
          rw [countLine_append]
          have hV : countLine 2 [makeTraversalStep root
              ("Visit " ++ toString v ++ " (count=" ++ toString (s2.count + 1) ++ ")")
              v .visiting (mapSet s2.visitedNodes v .visiting) s2.visitedEdges 2] ≤ 1 := by
            simp [countLine, makeTraversalStep]
          have hh : treeHeight l + 1 ≤ treeHeight (Tree.node v l r) := by
            simp [treeHeight]; omega
          omega

/-- C7 (amended): once the counter equals k and the found step (line 4)
is emitted, the walk stops doing any work — every recursive call entered
with the result already recorded returns its state unchanged, so the
right-subtree walk entered afterwards emits nothing — and the found step
is emitted at most once; however, each ancestor still unwinding emits
one further "visit (count=N)" step (line 2): all steps after the found
step are such line-2 visit steps (plus the closing line-6 summary), and
their number is bounded by the tree height, not by the subtree size. -/
theorem selectKth_early_termination (t : Tree) (k : Int) :
    (∀ (sub : Tree) (s : KthState), s.result.isSome = true → kthWalk t k sub s = s) ∧
    countLine 4 (selectKth t k).2 ≤ 1 ∧
    (∀ st ∈ afterFirstFound (selectKth t k).2,
        st.codeLine = some 2 ∨ st.codeLine = some 6) ∧
    countLine 2 (afterFirstFound (selectKth t k).2) ≤ treeHeight t := by
  have hS0 := kthWalk_char t k t
    ⟨[makeStep t ("Select " ++ toString k ++ "-th smallest") [] [] (some 0) none],
      [], [], 0, none⟩ rfl (by simp [countLine, makeStep])
  have hL : ∃ w6 : AnimationStep, w6.codeLine = some 6 ∧
      (selectKth t k).2 = (kthWalk t k t
        (⟨[makeStep t ("Select " ++ toString k ++ "-th smallest") [] [] (some 0) none],
          [], [], 0, none⟩ : KthState)).steps ++ [w6] := by
    simp only [selectKth]
    rcases hres : (kthWalk t k t
        (⟨[makeStep t ("Select " ++ toString k ++ "-th smallest") [] [] (some 0) none],
          [], [], 0, none⟩ : KthState)).result with _ | rv
    · exact ⟨_, by simp [makeStep], rfl⟩
    · exact ⟨_, by simp [makeStep], rfl⟩
  obtain ⟨w6, hw6, hsteps⟩ := hL
  refine ⟨fun sub s h => kthWalk_stuck t k sub s h, ?_, ?_, ?_⟩ <;> rw [hsteps]
  · rcases hS0 with ⟨_, h40⟩ | ⟨_, _, h41, _, _⟩
    · rw [countLine_append, h40]
      simp [countLine, hw6]
    · rw [countLine_append, h41]
      simp [countLine, hw6]
  · rcases hS0 with ⟨_, h40⟩ | ⟨_, _, h41, hall, _⟩
    · rw [afterFirstFound_of_no4 _ (by rw [countLine_append, h40]; simp [countLine, hw6])]
      intro st hst
      cases hst
    · rw [afterFirstFound_append_left _ _ (by omega)]
      intro st hst
      rcases List.mem_append.mp hst with hm | hm
      · exact Or.inl (hall st hm)
      · rcases List.mem_cons.mp hm with rfl | hm
        · exact Or.inr hw6
        · cases hm
  · rcases hS0 with ⟨_, h40⟩ | ⟨_, _, h41, _, hlen⟩
    · rw [afterFirstFound_of_no4 _ (by rw [countLine_append, h40]; simp [countLine, hw6])]
      simp [countLine]
    · rw [afterFirstFound_append_left _ _ (by omega), countLine_append]
      have h2w : countLine 2 [w6] = 0 := by simp [countLine, hw6]
      omega

/-- Witness for C7 (amended): a stuck walk call on a concrete state and
the concrete bounds at the tree 2/(1,·) with k = 1. -/
theorem selectKth_early_termination_wit :
    (kthWalk twoTree 1 Tree.leaf ⟨[], [], [], 0, some 7⟩ = ⟨[], [], [], 0, some 7⟩) ∧
    countLine 4 (selectKth twoTree 1).2 ≤ 1 ∧
    countLine 2 (afterFirstFound (selectKth twoTree 1).2) ≤ treeHeight twoTree :=
  ⟨(selectKth_early_termination twoTree 1).1 Tree.leaf ⟨[], [], [], 0, some 7⟩ rfl,
    (selectKth_early_termination twoTree 1).2.1,
    (selectKth_early_termination twoTree 1).2.2.2⟩

/-- C7 counterexample: at the tree 2/(1,·) with k = 1 the emitted code
lines are [0, 2, 4, 2, 6] and the descriptions show a further
"Visit 2 (count=2)" step after the closing found step, emitted by the
unwinding ancestor — contradicting "no further visit steps appear after
the found step". -/
theorem selectKth_visit_after_found :
    ((selectKth twoTree 1).2.map (fun st => st.codeLine)) =
      [some 0, some 2, some 4, some 2, some 6] ∧
    ((selectKth twoTree 1).2.map (fun st => st.description)) =
      ["Select 1-th smallest", "Visit 1 (count=1)", "1-th smallest is 1",
        "Visit 2 (count=2)", "Result: 1"] :=
  ⟨rfl, rfl⟩

-- ── C9: traversal highlight monotonicity ───────────────────────────────────

theorem stepLE_refl (st : AnimationStep) : stepLE st st := by
  constructor
  · intro e he; exact he
  · intro n hn
    rw [nonActiveKeys] at hn
    cases h : st.activeNode with
    | none => rw [h] at hn; exact hn
    | some a => rw [h] at hn; exact List.mem_of_mem_filter hn

theorem mem_pushChildEdge (v : Int) (c : Tree) (ve : List (Int × Int)) :
    ∀ e ∈ ve, e ∈ pushChildEdge v c ve := by
  intro e he
  cases c with
  | leaf => exact he
  | node cv cl cr => exact List.mem_append.mpr (Or.inl he)

theorem mem_keysOf_mapSet_super (vn : List (Int × HighlightType)) (k : Int)
    (ty : HighlightType) : ∀ n ∈ keysOf vn, n ∈ keysOf (mapSet vn k ty) :=
  fun _ hn => mem_keysOf_mapSet.mpr (Or.inr hn)

theorem nonActiveKeys_mts (tr : Tree) (d : String) (c : Int) (ty : HighlightType)
    (vn : List (Int × HighlightType)) (ve : List (Int × Int)) (cl : Nat) :
    ∀ n ∈ nonActiveKeys (makeTraversalStep tr d c ty vn ve cl), n ∈ keysOf vn := by
  intro n hn
  simp only [nonActiveKeys, makeTraversalStep] at hn
  rw [List.mem_filter] at hn
  rcases mem_keysOf_mapSet.mp hn.1 with rfl | h
  · have := hn.2; simp at this
  · exact h

theorem stepOKof_mono (vn vn' : List (Int × HighlightType)) (ve ve' : List (Int × Int))
    (st : AnimationStep) (h : stepOKof vn ve st)
    (hvn : ∀ n ∈ keysOf vn, n ∈ keysOf vn') (hve : ∀ e ∈ ve, e ∈ ve') :
    stepOKof vn' ve' st :=
  ⟨fun e he => hve e (h.1 e he), fun n hn => hvn n (h.2 n hn)⟩

theorem stepOKof_mts (tr : Tree) (d : String) (c : Int) (ty : HighlightType)
    (vn : List (Int × HighlightType)) (ve : List (Int × Int)) (cl : Nat) :
    stepOKof vn ve (makeTraversalStep tr d c ty vn ve cl) := by
  constructor
  · intro e he
    simpa [makeTraversalStep] using he
  · exact nonActiveKeys_mts tr d c ty vn ve cl

theorem stepLE_of_ok (vn : List (Int × HighlightType)) (ve : List (Int × Int))
    (st st' : AnimationStep) (h : stepOKof vn ve st)
    (hn : ∀ n ∈ keysOf vn, n ∈ keysOf st'.highlightNodes)
    (he : ∀ e ∈ ve, e ∈ st'.highlightEdges) : stepLE st st' :=
  ⟨fun e hee => he e (h.1 e hee), fun n hnn => hn n (h.2 n hnn)⟩

theorem TravInv_step (s : TravState) (h : TravInv s) (tr : Tree) (d : String) (c : Int)
    (ty : HighlightType) (cl : Nat) (vn' : List (Int × HighlightType))
    (ve' : List (Int × Int))
    (hvn : ∀ n ∈ keysOf s.visitedNodes, n ∈ keysOf vn')
    (hve : ∀ e ∈ s.visitedEdges, e ∈ ve') :
    TravInv ⟨s.steps ++ [makeTraversalStep tr d c ty vn' ve' cl], vn', ve'⟩ := by
  obtain ⟨hp, hok⟩ := h
  constructor
  · rw [List.pairwise_append]
    refine ⟨hp, by simp, ?_⟩
    intro a ha b hb
    obtain rfl := List.mem_singleton.mp hb
    refine stepLE_of_ok s.visitedNodes s.visitedEdges a _ (hok a ha) ?_ ?_
    · intro n hn
      show n ∈ keysOf (mapSet vn' c ty)
      exact mem_keysOf_mapSet_super vn' c ty n (hvn n hn)
    · intro e he
      show e ∈ ve'
      exact hve e he
  · intro st hst
    rcases List.mem_append.mp hst with hm | hm
    · exact stepOKof_mono _ _ _ _ st (hok st hm) hvn hve
    · obtain rfl := List.mem_singleton.mp hm
      exact stepOKof_mts tr d c ty vn' ve' cl

theorem TravInv_mono (s : TravState) (vn' : List (Int × HighlightType))
    (ve' : List (Int × Int)) (h : TravInv s)
    (hvn : ∀ n ∈ keysOf s.visitedNodes, n ∈ keysOf vn')
    (hve : ∀ e ∈ s.visitedEdges, e ∈ ve') :
    TravInv ⟨s.steps, vn', ve'⟩ :=
  ⟨h.1, fun st hst => stepOKof_mono _ _ _ _ st (h.2 st hst) hvn hve⟩

theorem inorderWalk_inv (root : Tree) : ∀ (t : Tree) (s : TravState), TravInv s →
    TravInv (inorderWalk root t s) ∧
    (∀ n ∈ keysOf s.visitedNodes, n ∈ keysOf (inorderWalk root t s).visitedNodes) ∧
    (∀ e ∈ s.visitedEdges, e ∈ (inorderWalk root t s).visitedEdges) := by
  intro t
  induction t with
  | leaf => intro s h; exact ⟨h, fun _ hn => hn, fun _ he => he⟩
  | node v l r ihl ihr =>
      intro s h
      simp only [inorderWalk]
      have hA : TravInv ⟨s.steps ++
          [makeTraversalStep root ("Go left from " ++ toString v) v .visiting
            s.visitedNodes s.visitedEdges 2],
          s.visitedNodes, pushChildEdge v l s.visitedEdges⟩ :=
        TravInv_mono _ _ _
          (TravInv_step s h root ("Go left from " ++ toString v) v .visiting 2
            s.visitedNodes s.visitedEdges (fun _ hn => hn) (fun _ he => he))
          (fun _ hn => hn) (mem_pushChildEdge v l _)
      obtain ⟨h3, h3n, h3e⟩ := ihl _ hA
      set s3 := inorderWalk root l
        (⟨s.steps ++
          [makeTraversalStep root ("Go left from " ++ toString v) v .visiting
            s.visitedNodes s.visitedEdges 2],
          s.visitedNodes, pushChildEdge v l s.visitedEdges⟩ : TravState) with hs3
      have hB : TravInv ⟨s3.steps ++
          [makeTraversalStep root ("Visit " ++ toString v ++ " (in-order)") v .found
            (mapSet s3.visitedNodes v .found) s3.visitedEdges 3],
          mapSet s3.visitedNodes v .found, s3.visitedEdges⟩ :=
        TravInv_step s3 h3 root _ v .found 3 (mapSet s3.visitedNodes v .found)
          s3.visitedEdges (mem_keysOf_mapSet_super _ _ _) (fun _ he => he)
      have hC : TravInv ⟨(s3.steps ++
          [makeTraversalStep root ("Visit " ++ toString v ++ " (in-order)") v .found
            (mapSet s3.visitedNodes v .found) s3.visitedEdges 3]) ++
          [makeTraversalStep root ("Go right from " ++ toString v) v .visiting
            (mapSet s3.visitedNodes v .found) s3.visitedEdges 4],
          mapSet s3.visitedNodes v .found, pushChildEdge v r s3.visitedEdges⟩ :=
        TravInv_mono _ _ _
          (TravInv_step ⟨s3.steps ++
              [makeTraversalStep root ("Visit " ++ toString v ++ " (in-order)") v .found
                (mapSet s3.visitedNodes v .found) s3.visitedEdges 3],
              mapSet s3.visitedNodes v .found, s3.visitedEdges⟩ hB root _ v .visiting 4
            (mapSet s3.visitedNodes v .found) s3.visitedEdges
            (fun _ hn => hn) (fun _ he => he))
          (fun _ hn => hn) (mem_pushChildEdge v r _)
      obtain ⟨hf, hfn, hfe⟩ := ihr _ hC
      refine ⟨hf, ?_, ?_⟩
      · intro n hn
        exact hfn n (mem_keysOf_mapSet_super _ _ _ n
          (h3n n hn))
      · intro e he
        exact hfe e (mem_pushChildEdge v r _ e (h3e e (mem_pushChildEdge v l _ e he)))

theorem preorderWalk_inv (root : Tree) : ∀ (t : Tree) (s : TravState), TravInv s →
    TravInv (preorderWalk root t s) ∧
    (∀ n ∈ keysOf s.visitedNodes, n ∈ keysOf (preorderWalk root t s).visitedNodes) ∧
    (∀ e ∈ s.visitedEdges, e ∈ (preorderWalk root t s).visitedEdges) := by
  intro t
  induction t with
  | leaf => intro s h; exact ⟨h, fun _ hn => hn, fun _ he => he⟩
  | node v l r ihl ihr =>
      intro s h
      simp only [preorderWalk]
      have hA : TravInv ⟨s.steps ++
          [makeTraversalStep root ("Visit " ++ toString v ++ " (pre-order)") v .found
            (mapSet s.visitedNodes v .found) s.visitedEdges 2],
          mapSet s.visitedNodes v .found, s.visitedEdges⟩ :=
        TravInv_step s h root _ v .found 2 (mapSet s.visitedNodes v .found)
          s.visitedEdges (mem_keysOf_mapSet_super _ _ _) (fun _ he => he)
      have hC : TravInv ⟨(s.steps ++
          [makeTraversalStep root ("Visit " ++ toString v ++ " (pre-order)") v .found
            (mapSet s.visitedNodes v .found) s.visitedEdges 2]) ++
          [makeTraversalStep root ("Go left from " ++ toString v) v .visiting
            (mapSet s.visitedNodes v .found) s.visitedEdges 3],
          mapSet s.visitedNodes v .found, pushChildEdge v l s.visitedEdges⟩ :=
        TravInv_mono _ _ _
          (TravInv_step ⟨s.steps ++
              [makeTraversalStep root ("Visit " ++ toString v ++ " (pre-order)") v .found
                (mapSet s.visitedNodes v .found) s.visitedEdges 2],
              mapSet s.visitedNodes v .found, s.visitedEdges⟩ hA root _ v .visiting 3
            (mapSet s.visitedNodes v .found) s.visitedEdges
            (fun _ hn => hn) (fun _ he => he))
          (fun _ hn => hn) (mem_pushChildEdge v l _)
      obtain ⟨h5, h5n, h5e⟩ := ihl _ hC
      set s5 := preorderWalk root l
        (⟨(s.steps ++
          [makeTraversalStep root ("Visit " ++ toString v ++ " (pre-order)") v .found
            (mapSet s.visitedNodes v .found) s.visitedEdges 2]) ++
          [makeTraversalStep root ("Go left from " ++ toString v) v .visiting
            (mapSet s.visitedNodes v .found) s.visitedEdges 3],
          mapSet s.visitedNodes v .found, pushChildEdge v l s.visitedEdges⟩ : TravState)
        with hs5
      have hE : TravInv ⟨s5.steps ++
          [makeTraversalStep root ("Go right from " ++ toString v) v .visiting
            s5.visitedNodes s5.visitedEdges 4],
          s5.visitedNodes, pushChildEdge v r s5.visitedEdges⟩ :=
        TravInv_mono _ _ _
          (TravInv_step s5 h5 root _ v .visiting 4 s5.visitedNodes s5.visitedEdges
            (fun _ hn => hn) (fun _ he => he))
          (fun _ hn => hn) (mem_pushChildEdge v r _)
      obtain ⟨hf, hfn, hfe⟩ := ihr _ hE
      refine ⟨hf, ?_, ?_⟩
      · intro n hn
        exact hfn n (h5n n (mem_keysOf_mapSet_super _ _ _ n hn))
      · intro e he
        exact hfe e (mem_pushChildEdge v r _ e (h5e e (mem_pushChildEdge v l _ e he)))

theorem postorderWalk_inv (root : Tree) : ∀ (t : Tree) (s : TravState), TravInv s →
    TravInv (postorderWalk root t s) ∧
    (∀ n ∈ keysOf s.visitedNodes, n ∈ keysOf (postorderWalk root t s).visitedNodes) ∧
    (∀ e ∈ s.visitedEdges, e ∈ (postorderWalk root t s).visitedEdges) := by
  intro t
  induction t with
  | leaf => intro s h; exact ⟨h, fun _ hn => hn, fun _ he => he⟩
  | node v l r ihl ihr =>
      intro s h
      simp only [postorderWalk]
      have hA : TravInv ⟨s.steps ++
          [makeTraversalStep root ("Go left from " ++ toString v) v .visiting
            s.visitedNodes s.visitedEdges 2],
          s.visitedNodes, pushChildEdge v l s.visitedEdges⟩ :=
        TravInv_mono _ _ _
          (TravInv_step s h root _ v .visiting 2 s.visitedNodes s.visitedEdges
            (fun _ hn => hn) (fun _ he => he))
          (fun _ hn => hn) (mem_pushChildEdge v l _)
      obtain ⟨h3, h3n, h3e⟩ := ihl _ hA
      set s3 := postorderWalk root l
        (⟨s.steps ++
          [makeTraversalStep root ("Go left from " ++ toString v) v .visiting
            s.visitedNodes s.visitedEdges 2],
          s.visitedNodes, pushChildEdge v l s.visitedEdges⟩ : TravState) with hs3
      have hB : TravInv ⟨s3.steps ++
          [makeTraversalStep root ("Go right from " ++ toString v) v .visiting
            s3.visitedNodes s3.visitedEdges 3],
          s3.visitedNodes, pushChildEdge v r s3.visitedEdges⟩ :=
        TravInv_mono _ _ _
          (TravInv_step s3 h3 root _ v .visiting 3 s3.visitedNodes s3.visitedEdges
            (fun _ hn => hn) (fun _ he => he))
          (fun _ hn => hn) (mem_pushChildEdge v r _)
      obtain ⟨h6, h6n, h6e⟩ := ihr _ hB
      set s6 := postorderWalk root r
        (⟨s3.steps ++
          [makeTraversalStep root ("Go right from " ++ toString v) v .visiting
            s3.visitedNodes s3.visitedEdges 3],
          s3.visitedNodes, pushChildEdge v r s3.visitedEdges⟩ : TravState) with hs6
      refine ⟨?_, ?_, ?_⟩
      · exact TravInv_step s6 h6 root _ v .found 4 (mapSet s6.visitedNodes v .found)
          s6.visitedEdges (mem_keysOf_mapSet_super _ _ _) (fun _ he => he)
      · intro n hn
        exact mem_keysOf_mapSet_super _ _ _ n (h6n n (h3n n hn))
      · intro e he
        exact h6e e (mem_pushChildEdge v r _ e (h3e e (mem_pushChildEdge v l _ e he)))

theorem pairwise_trav_steps (s : TravState) (h : TravInv s) (tr : Tree) (d : String) :
    List.Pairwise stepLE
      (s.steps ++ [makeStep tr d s.visitedNodes s.visitedEdges none none]) := by
  rw [List.pairwise_append]
  refine ⟨h.1, by simp, ?_⟩
  intro a ha b hb
  obtain rfl := List.mem_singleton.mp hb
  refine stepLE_of_ok s.visitedNodes s.visitedEdges a _ (h.2 a ha) ?_ ?_
  · intro n hn
    show n ∈ keysOf (mapOfList s.visitedNodes)
    exact mem_keysOf_mapOfList.mpr hn
  · intro e he
    exact he

theorem pairwise_get_le {L : List AnimationStep} (h : List.Pairwise stepLE L) :
    ∀ (i j : Nat) (hi : i < L.length) (hj : j < L.length), i ≤ j →
      stepLE (L.get ⟨i, hi⟩) (L.get ⟨j, hj⟩) := by
  intro i j hi hj hij
  rcases Nat.lt_or_ge j i with hgt | hge
  · omega
  · rcases Nat.eq_or_lt_of_le hge with rfl | hlt
    · exact stepLE_refl _
    · exact List.pairwise_iff_getElem.mp h i j hi hj hlt

theorem TravInv_nil : TravInv ⟨[], [], []⟩ := by
  constructor
  · exact List.Pairwise.nil
  · intro st hst
    cases hst

/-- C9 (amended): for each of the three traversals, the highlighted
edges are cumulative, and so are the highlighted nodes except for the
step's own transient `activeNode` overlay: every edge highlighted in a
step, and every highlighted node other than the step's active node, stays
highlighted in every later step of the trace. -/
theorem traversal_highlights_monotone (t : Tree) :
    (∀ (i j : Nat) (hi : i < (inorderTraversal t).length)
        (hj : j < (inorderTraversal t).length), i ≤ j →
      stepLE ((inorderTraversal t).get ⟨i, hi⟩) ((inorderTraversal t).get ⟨j, hj⟩)) ∧
    (∀ (i j : Nat) (hi : i < (preorderTraversal t).length)
        (hj : j < (preorderTraversal t).length), i ≤ j →
      stepLE ((preorderTraversal t).get ⟨i, hi⟩) ((preorderTraversal t).get ⟨j, hj⟩)) ∧
    (∀ (i j : Nat) (hi : i < (postorderTraversal t).length)
        (hj : j < (postorderTraversal t).length), i ≤ j →
      stepLE ((postorderTraversal t).get ⟨i, hi⟩) ((postorderTraversal t).get ⟨j, hj⟩)) := by
  refine ⟨?_, ?_, ?_⟩
  · exact pairwise_get_le
      (pairwise_trav_steps _ (inorderWalk_inv t t ⟨[], [], []⟩ TravInv_nil).1
        t "In-order traversal complete")
  · exact pairwise_get_le
      (pairwise_trav_steps _ (preorderWalk_inv t t ⟨[], [], []⟩ TravInv_nil).1
        t "Pre-order traversal complete")
  · exact pairwise_get_le
      (pairwise_trav_steps _ (postorderWalk_inv t t ⟨[], [], []⟩ TravInv_nil).1
        t "Post-order traversal complete")

/-- Witness for C9 (amended) at the tree 50/(30,·), steps 0 and 1 of
each traversal. -/
theorem traversal_highlights_monotone_wit :
    stepLE ((inorderTraversal fiftyTree).get ⟨0, by decide⟩)
      ((inorderTraversal fiftyTree).get ⟨1, by decide⟩) ∧
    stepLE ((preorderTraversal fiftyTree).get ⟨0, by decide⟩)
      ((preorderTraversal fiftyTree).get ⟨1, by decide⟩) ∧
    stepLE ((postorderTraversal fiftyTree).get ⟨0, by decide⟩)
      ((postorderTraversal fiftyTree).get ⟨1, by decide⟩) :=
  ⟨(traversal_highlights_monotone fiftyTree).1 0 1 (by decide) (by decide) (by decide),
    (traversal_highlights_monotone fiftyTree).2.1 0 1 (by decide) (by decide) (by decide),
    (traversal_highlights_monotone fiftyTree).2.2 0 1 (by decide) (by decide) (by decide)⟩

/-- C9 counterexample: in the in-order traversal of the tree 50/(30,·),
step 0 highlights node 50 (as the transient visiting highlight of the
active node), but step 1 does not highlight 50 at all — the emitted
per-step highlight map is not cumulative as claimed. -/
theorem traversal_highlights_not_cumulative :
    keysOf ((inorderTraversal fiftyTree).get ⟨0, by decide⟩).highlightNodes = [50] ∧
    ((inorderTraversal fiftyTree).get ⟨0, by decide⟩).activeNode = some 50 ∧
    ¬ (50 : Int) ∈ keysOf ((inorderTraversal fiftyTree).get ⟨1, by decide⟩).highlightNodes := by
  decide

-- ── C10: emitted code lines index into the pseudocode tables ───────────────

theorem stepsLinesOK_append {B : Nat} {a b : List AnimationStep}
    (ha : stepsLinesOK B a) (hb : stepsLinesOK B b) : stepsLinesOK B (a ++ b) := by
  intro st hst n hcl
  rcases List.mem_append.mp hst with h | h
  · exact ha st h n hcl
  · exact hb st h n hcl

theorem stepsLinesOK_nil {B : Nat} : stepsLinesOK B [] := by
  intro st hst
  cases hst

theorem stepsLinesOK_mts {B : Nat} (tr : Tree) (d : String) (c : Int)
    (ty : HighlightType) (vn : List (Int × HighlightType)) (ve : List (Int × Int))
    (cl : Nat) (h : cl < B) :
    stepsLinesOK B [makeTraversalStep tr d c ty vn ve cl] := by
  intro st hst n hcl
  obtain rfl := List.mem_singleton.mp hst
  simp [makeTraversalStep] at hcl
  omega

theorem stepsLinesOK_mkStep_some {B : Nat} (tr : Tree) (d : String)
    (hl : List (Int × HighlightType)) (ed : List (Int × Int)) (m : Nat)
    (an : Option Int) (h : m < B) :
    stepsLinesOK B [makeStep tr d hl ed (some m) an] := by
  intro st hst n hcl
  obtain rfl := List.mem_singleton.mp hst
  simp [makeStep] at hcl
  omega

theorem stepsLinesOK_mkStep_none {B : Nat} (tr : Tree) (d : String)
    (hl : List (Int × HighlightType)) (ed : List (Int × Int)) (an : Option Int) :
    stepsLinesOK B [makeStep tr d hl ed none an] := by
  intro st hst n hcl
  obtain rfl := List.mem_singleton.mp hst
  simp [makeStep] at hcl

theorem searchGo_linesOK (root : Tree) (v : Int) :
    ∀ (t : Tree) (parent : Option Int) (pn : List (Int × HighlightType))
      (pe : List (Int × Int)) (steps : List AnimationStep),
      stepsLinesOK 7 steps → stepsLinesOK 7 (searchGo root v t parent pn pe steps).2 := by
  intro t
  induction t with
  | leaf =>
      intro parent pn pe steps h
      exact stepsLinesOK_append
        (stepsLinesOK_append h (stepsLinesOK_mkStep_some _ _ _ _ 0 _ (by omega)))
        (stepsLinesOK_mkStep_some _ _ _ _ 1 _ (by omega))
  | node x l r ihl ihr =>
      intro parent pn pe steps h
      simp only [searchGo]
      split
      · exact stepsLinesOK_append
          (stepsLinesOK_append
            (stepsLinesOK_append h (stepsLinesOK_mts _ _ _ _ _ _ 0 (by omega)))
            (stepsLinesOK_mts _ _ _ _ _ _ 2 (by omega)))
          (stepsLinesOK_mts _ _ _ _ _ _ 3 (by omega))
      · split
        · exact ihl _ _ _ _
            (stepsLinesOK_append
              (stepsLinesOK_append h (stepsLinesOK_mts _ _ _ _ _ _ 0 (by omega)))
              (stepsLinesOK_mts _ _ _ _ _ _ 6 (by omega)))
        · exact ihr _ _ _ _
            (stepsLinesOK_append
              (stepsLinesOK_append h (stepsLinesOK_mts _ _ _ _ _ _ 0 (by omega)))
              (stepsLinesOK_mts _ _ _ _ _ _ 5 (by omega)))

theorem insertGo_linesOK (rootT : Tree) (v : Int) :
    ∀ (t : Tree) (parent : Option Int) (s : PathState),
      stepsLinesOK 6 s.steps → stepsLinesOK 6 (insertGo rootT v t parent s).2.steps := by
  intro t
  induction t with
  | leaf => intro parent s h; exact h
  | node x l r ihl ihr =>
      intro parent s h
      simp only [insertGo]
      split
      · exact ihl _ _
          (stepsLinesOK_append
            (stepsLinesOK_append h (stepsLinesOK_mts _ _ _ _ _ _ 0 (by omega)))
            (stepsLinesOK_mts _ _ _ _ _ _ 2 (by omega)))
      · split
        · exact ihr _ _
            (stepsLinesOK_append
              (stepsLinesOK_append h (stepsLinesOK_mts _ _ _ _ _ _ 0 (by omega)))
              (stepsLinesOK_mts _ _ _ _ _ _ 4 (by omega)))
        · exact stepsLinesOK_append h (stepsLinesOK_mts _ _ _ _ _ _ 0 (by omega))

theorem removeGo_linesOK (v : Int) :
    ∀ (t : Tree) (parent : Option Int) (ctx : Tree → Tree) (s : PathState),
      stepsLinesOK 12 s.steps → stepsLinesOK 12 (removeGo v t parent ctx s).2.steps := by
  intro t
  induction t with
  | leaf =>
      intro parent ctx s h
      exact stepsLinesOK_append h (stepsLinesOK_mkStep_some _ _ _ _ 1 _ (by omega))
  | node x l r ihl ihr =>
      intro parent ctx s h
      simp only [removeGo]
      split
      · exact ihl _ _ _
          (stepsLinesOK_append
            (stepsLinesOK_append h (stepsLinesOK_mts _ _ _ _ _ _ 0 (by omega)))
            (stepsLinesOK_mts _ _ _ _ _ _ 2 (by omega)))
      · split
        · exact ihr _ _ _
            (stepsLinesOK_append
              (stepsLinesOK_append h (stepsLinesOK_mts _ _ _ _ _ _ 0 (by omega)))
              (stepsLinesOK_mts _ _ _ _ _ _ 4 (by omega)))
        · split
          · exact stepsLinesOK_append
              (stepsLinesOK_append
                (stepsLinesOK_append h (stepsLinesOK_mts _ _ _ _ _ _ 0 (by omega)))
                (stepsLinesOK_mts _ _ _ _ _ _ 6 (by omega)))
              (stepsLinesOK_mts _ _ _ _ _ _ 7 (by omega))
          · exact stepsLinesOK_append
              (stepsLinesOK_append
                (stepsLinesOK_append h (stepsLinesOK_mts _ _ _ _ _ _ 0 (by omega)))
                (stepsLinesOK_mts _ _ _ _ _ _ 6 (by omega)))
              (stepsLinesOK_mts _ _ _ _ _ _ 8 (by omega))
          · exact stepsLinesOK_append
              (stepsLinesOK_append
                (stepsLinesOK_append h (stepsLinesOK_mts _ _ _ _ _ _ 0 (by omega)))
                (stepsLinesOK_mts _ _ _ _ _ _ 6 (by omega)))
              (stepsLinesOK_mts _ _ _ _ _ _ 8 (by omega))
          · exact ihr _ _ _
              (stepsLinesOK_append
                (stepsLinesOK_append
                  (stepsLinesOK_append
                    (stepsLinesOK_append h (stepsLinesOK_mts _ _ _ _ _ _ 0 (by omega)))
                    (stepsLinesOK_mts _ _ _ _ _ _ 6 (by omega)))
                  (stepsLinesOK_mkStep_some _ _ _ _ 9 _ (by omega)))
                (stepsLinesOK_mkStep_some _ _ _ _ 10 _ (by omega)))

theorem predGo_linesOK (root : Tree) (v : Int) :
    ∀ (t : Tree) (parent : Option Int) (pred : Option Int) (s : PathState),
      stepsLinesOK 8 s.steps → stepsLinesOK 8 (predGo root v t parent pred s).2.steps := by
  intro t
  induction t with
  | leaf => intro parent pred s h; exact h
  | node x l r ihl ihr =>
      intro parent pred s h
      simp only [predGo]
      split
      · exact ihl _ _ _
          (stepsLinesOK_append
            (stepsLinesOK_append h (stepsLinesOK_mts _ _ _ _ _ _ 1 (by omega)))
            (stepsLinesOK_mts _ _ _ _ _ _ 3 (by omega)))
      · exact ihr _ _ _
          (stepsLinesOK_append
            (stepsLinesOK_append h (stepsLinesOK_mts _ _ _ _ _ _ 1 (by omega)))
            (stepsLinesOK_mts _ _ _ _ _ _ 5 (by omega)))

theorem succGo_linesOK (root : Tree) (v : Int) :
    ∀ (t : Tree) (parent : Option Int) (succ : Option Int) (s : PathState),
      stepsLinesOK 8 s.steps → stepsLinesOK 8 (succGo root v t parent succ s).2.steps := by
  intro t
  induction t with
  | leaf => intro parent succ s h; exact h
  | node x l r ihl ihr =>
      intro parent succ s h
      simp only [succGo]
      split
      · exact ihr _ _ _
          (stepsLinesOK_append
            (stepsLinesOK_append h (stepsLinesOK_mts _ _ _ _ _ _ 1 (by omega)))
            (stepsLinesOK_mts _ _ _ _ _ _ 3 (by omega)))
      · exact ihl _ _ _
          (stepsLinesOK_append
            (stepsLinesOK_append h (stepsLinesOK_mts _ _ _ _ _ _ 1 (by omega)))
            (stepsLinesOK_mts _ _ _ _ _ _ 5 (by omega)))

theorem kthWalk_linesOK (root : Tree) (k : Int) :
    ∀ (t : Tree) (s : KthState),
      stepsLinesOK 7 s.steps → stepsLinesOK 7 (kthWalk root k t s).steps := by
  intro t
  induction t with
  | leaf => intro s h; exact h
  | node x l r ihl ihr =>
      intro s h
      simp only [kthWalk]
      split
      · exact h
      · split
        · exact stepsLinesOK_append
            (stepsLinesOK_append (ihl _ h) (stepsLinesOK_mts _ _ _ _ _ _ 2 (by omega)))
            (stepsLinesOK_mts _ _ _ _ _ _ 4 (by omega))
        · exact ihr _
            (stepsLinesOK_append (ihl _ h) (stepsLinesOK_mts _ _ _ _ _ _ 2 (by omega)))

theorem inorderWalk_linesOK (root : Tree) :
    ∀ (t : Tree) (s : TravState),
      stepsLinesOK 5 s.steps → stepsLinesOK 5 (inorderWalk root t s).steps := by
  intro t
  induction t with
  | leaf => intro s h; exact h
  | node x l r ihl ihr =>
      intro s h
      simp only [inorderWalk]
      exact ihr _
        (stepsLinesOK_append
          (stepsLinesOK_append
            (ihl _ (stepsLinesOK_append h (stepsLinesOK_mts _ _ _ _ _ _ 2 (by omega))))
            (stepsLinesOK_mts _ _ _ _ _ _ 3 (by omega)))
          (stepsLinesOK_mts _ _ _ _ _ _ 4 (by omega)))

theorem preorderWalk_linesOK (root : Tree) :
    ∀ (t : Tree) (s : TravState),
      stepsLinesOK 5 s.steps → stepsLinesOK 5 (preorderWalk root t s).steps := by
  intro t
  induction t with
  | leaf => intro s h; exact h
  | node x l r ihl ihr =>
      intro s h
      simp only [preorderWalk]
      exact ihr _
        (stepsLinesOK_append
          (ihl _
            (stepsLinesOK_append
              (stepsLinesOK_append h (stepsLinesOK_mts _ _ _ _ _ _ 2 (by omega)))
              (stepsLinesOK_mts _ _ _ _ _ _ 3 (by omega))))
          (stepsLinesOK_mts _ _ _ _ _ _ 4 (by omega)))

theorem postorderWalk_linesOK (root : Tree) :
    ∀ (t : Tree) (s : TravState),
      stepsLinesOK 5 s.steps → stepsLinesOK 5 (postorderWalk root t s).steps := by
  intro t
  induction t with
  | leaf => intro s h; exact h
  | node x l r ihl ihr =>
      intro s h
      simp only [postorderWalk]
      exact stepsLinesOK_append
        (ihr _
          (stepsLinesOK_append
            (ihl _ (stepsLinesOK_append h (stepsLinesOK_mts _ _ _ _ _ _ 2 (by omega))))
            (stepsLinesOK_mts _ _ _ _ _ _ 3 (by omega))))
        (stepsLinesOK_mts _ _ _ _ _ _ 4 (by omega))

theorem insertNode_linesOK (t : Tree) (v : Int) : stepsLinesOK 6 (insertNode t v).2 := by
  cases t with
  | leaf => exact stepsLinesOK_mkStep_some _ _ _ _ 1 _ (by omega)
  | node x l r =>
      exact stepsLinesOK_append
        (insertGo_linesOK _ v _ none _ stepsLinesOK_nil)
        (stepsLinesOK_mkStep_some _ _ _ _ 1 _ (by omega))

theorem foldl_insert_linesOK : ∀ (vs : List Int) (acc : Tree × List AnimationStep),
    stepsLinesOK 6 acc.2 →
    stepsLinesOK 6 ((vs.foldl (fun acc v =>
      ((insertNode acc.1 v).1, acc.2 ++ (insertNode acc.1 v).2)) acc)).2 := by
  intro vs
  induction vs with
  | nil => intro acc h; exact h
  | cons v rest ih =>
      intro acc h
      rw [List.foldl_cons]
      exact ih _ (stepsLinesOK_append h (insertNode_linesOK _ _))

/-- C10: for each of the ten operation kinds, every `codeLine` carried
by an emitted animation step is a valid 0-based index into that kind's
pseudocode line list. -/
theorem codeLines_in_range (t : Tree) (v : Int) (k : Int) (vs : List Int) :
    stepsLinesOK (getPseudocode .search).lines.length (searchNode t v).2 ∧
    stepsLinesOK (getPseudocode .insert).lines.length (insertNode t v).2 ∧
    stepsLinesOK (getPseudocode .remove).lines.length (removeNode t v).2 ∧
    stepsLinesOK (getPseudocode .create).lines.length (createTreeFromValues vs).2 ∧
    stepsLinesOK (getPseudocode .predecessor).lines.length (findPredecessor t v).2 ∧
    stepsLinesOK (getPseudocode .successor).lines.length (findSuccessor t v).2 ∧
    stepsLinesOK (getPseudocode .selectKth).lines.length (selectKth t k).2 ∧
    stepsLinesOK (getPseudocode .inorder).lines.length (inorderTraversal t) ∧
    stepsLinesOK (getPseudocode .preorder).lines.length (preorderTraversal t) ∧
    stepsLinesOK (getPseudocode .postorder).lines.length (postorderTraversal t) := by
  refine ⟨?_, insertNode_linesOK t v, ?_, ?_, ?_, ?_, ?_, ?_, ?_, ?_⟩
  · exact searchGo_linesOK t v t none [] [] [] stepsLinesOK_nil
  · exact stepsLinesOK_append
      (removeGo_linesOK v (cloneTree t) none (fun x => x) ⟨[], [], []⟩ stepsLinesOK_nil)
      (stepsLinesOK_mkStep_none _ _ _ _ _)
  · exact stepsLinesOK_append
      (foldl_insert_linesOK vs (Tree.leaf, []) stepsLinesOK_nil)
      (stepsLinesOK_mkStep_none _ _ _ _ _)
  · show stepsLinesOK 8 (findPredecessor t v).2
    simp only [findPredecessor]
    split
    · exact stepsLinesOK_append
        (predGo_linesOK t v t none none _
          (stepsLinesOK_mkStep_some _ _ _ _ 0 _ (by omega)))
        (stepsLinesOK_mkStep_some _ _ _ _ 7 _ (by omega))
    · exact stepsLinesOK_append
        (predGo_linesOK t v t none none _
          (stepsLinesOK_mkStep_some _ _ _ _ 0 _ (by omega)))
        (stepsLinesOK_mkStep_some _ _ _ _ 7 _ (by omega))
  · show stepsLinesOK 8 (findSuccessor t v).2
    simp only [findSuccessor]
    split
    · exact stepsLinesOK_append
        (succGo_linesOK t v t none none _
          (stepsLinesOK_mkStep_some _ _ _ _ 0 _ (by omega)))
        (stepsLinesOK_mkStep_some _ _ _ _ 7 _ (by omega))
    · exact stepsLinesOK_append
        (succGo_linesOK t v t none none _
          (stepsLinesOK_mkStep_some _ _ _ _ 0 _ (by omega)))
        (stepsLinesOK_mkStep_some _ _ _ _ 7 _ (by omega))
  · show stepsLinesOK 7 (selectKth t k).2
    simp only [selectKth]
    split
    · exact stepsLinesOK_append
        (kthWalk_linesOK t k t _ (stepsLinesOK_mkStep_some _ _ _ _ 0 _ (by omega)))
        (stepsLinesOK_mkStep_some _ _ _ _ 6 _ (by omega))
    · exact stepsLinesOK_append
        (kthWalk_linesOK t k t _ (stepsLinesOK_mkStep_some _ _ _ _ 0 _ (by omega)))
        (stepsLinesOK_mkStep_some _ _ _ _ 6 _ (by omega))
  · exact stepsLinesOK_append
      (inorderWalk_linesOK t t ⟨[], [], []⟩ stepsLinesOK_nil)
      (stepsLinesOK_mkStep_none _ _ _ _ _)
  · exact stepsLinesOK_append
      (preorderWalk_linesOK t t ⟨[], [], []⟩ stepsLinesOK_nil)
      (stepsLinesOK_mkStep_none _ _ _ _ _)
  · exact stepsLinesOK_append
      (postorderWalk_linesOK t t ⟨[], [], []⟩ stepsLinesOK_nil)
      (stepsLinesOK_mkStep_none _ _ _ _ _)

/-- Witness for C10: the first step of a concrete search carries
codeLine 0, which the theorem places below the 7-line Search table. -/
theorem codeLines_in_range_wit : (0 : Nat) < (getPseudocode .search).lines.length :=
  (codeLines_in_range twoTree 1 1 [1]).1
    ((searchNode twoTree 1).2.get ⟨0, by decide⟩)
    (List.get_mem _ _ _) 0 (by decide)

end BSTViz
